import Mathlib

/-!
Verification of the remote-GDB debug adapter's protocol engine against its
natural-language specification.

The development shallowly embeds the TypeScript sources:
* the GDB/MI line codec (class `GDBMI` in `gdbMI.ts`): `parseLine`,
  `parseValue`, `parseResults`, `unescapeString`, `parseStoppedEvent`, …;
* the record dispatcher and command correlation of the rich debug session
  (`handleMIRecord`, `handleStopped`, the pending-command table and the
  command timeout of `sendGDBCommand`, `setBreakpointsRequest`,
  `getGdbBreakpointId`);
* the SSH session manager's bounded reconnection policy
  (`handleDisconnect` / `attemptReconnect`);
* the `PathMapper` (`toRemotePath` / `toLocalPath`).

Strings are embedded as `List Char`; a TypeScript scanning index `i` into a
fixed string `str` is embedded as the suffix `str.substring(i)` (the two views
are interchangeable because the scanners only ever move forward), and
`endIndex` becomes the remaining suffix.  JavaScript `Map`s are embedded as
insertion-ordered association lists.  The `while` loops of the parser are
embedded with an explicit fuel parameter; a result of `none` means the fuel
ran out, so `∀ fuel, … = none` expresses non-termination of the original
loop.
-/

namespace RemoteGdb

/-- Convenience: the character list of a string literal. -/
def chars (s : String) : List Char := s.data

/-! ## JavaScript string primitives used by the codec -/

/-- Whitespace as recognised by JavaScript `String.prototype.trim`
    (restricted to the ASCII whitespace characters that can occur here). -/
def isJsSpace (c : Char) : Bool :=
  c = ' ' ∨ c = '\t' ∨ c = '\n' ∨ c = '\r' ∨ c = '\x0b' ∨ c = '\x0c'

/-- JavaScript `s.trim()`. -/
def jsTrim (s : List Char) : List Char :=
  ((s.dropWhile isJsSpace).reverse.dropWhile isJsSpace).reverse

/-- One global-replace pass `str.replace(/\\p/g, r)`: every occurrence of the
    two-character sequence backslash-`p` is replaced by the single character
    `r`, scanning left to right, non-overlapping. -/
def replaceEsc (p r : Char) : List Char → List Char
  | [] => []
  | [a] => [a]
  | a :: b :: rest =>
    if a = '\\' then
      if b = p then r :: replaceEsc p r rest
      else '\\' :: replaceEsc p r (b :: rest)
    else a :: replaceEsc p r (b :: rest)

/-- `GDBMI.unescapeString`: the five sequential global replaces, in source
    order — `\n` first, `\\` last. -/
def unescapeString (s : List Char) : List Char :=
  replaceEsc '\\' '\\'
    (replaceEsc '"' '"'
      (replaceEsc 't' '\t'
        (replaceEsc 'r' '\r'
          (replaceEsc 'n' '\n' s))))

/-- The escape map described by the specification (§4.1/§8): each of the five
    special characters becomes its two-character escape sequence.  The
    repository itself only unescapes (GDB performs the escaping), so this
    direction is taken from the spec's wording. -/
def escapeChar (c : Char) : List Char :=
  if c = '\n' then ['\\', 'n']
  else if c = '\r' then ['\\', 'r']
  else if c = '\t' then ['\\', 't']
  else if c = '"' then ['\\', '"']
  else if c = '\\' then ['\\', '\\']
  else [c]

/-- Concatenation of a per-character expansion over a string. -/
def flatE (E : Char → List Char) : List Char → List Char
  | [] => []
  | c :: rest => E c ++ flatE E rest

/-- `escape`: spec-described escaping of a whole string. -/
def escape (s : List Char) : List Char := flatE escapeChar s

/-- `goodStr s`: no backslash in `s` is immediately followed by a literal
    `n`, `r`, `t` or `"`.  (On such strings the sequential-replace order of
    `unescapeString` cannot misfire.) -/
def goodStr : List Char → Bool
  | [] => true
  | [_] => true
  | a :: b :: rest =>
    (!(a = '\\' && (b = 'n' || b = 'r' || b = 't' || b = '"'))) && goodStr (b :: rest)

/-! ## MI data model (`types/gdb.ts`) -/

/-- `MIValue`: the closed tagged union `string | MITuple | MIList`.
    A tuple's `results` field is a list of `variable`/`value` pairs
    (`MIResult`). -/
inductive MIValue where
  | str : List Char → MIValue
  | tuple : List (List Char × MIValue) → MIValue
  | list : List MIValue → MIValue

/-- `MIResult`: a `variable = value` pair. -/
abbrev MIResult := List Char × MIValue

/-- `MIRecordType`. -/
inductive MIRecordType where
  | result | exec | status | notify | console | target | log
deriving DecidableEq

/-- `MIRecord`; the TS `class` field is called `cls` here (`class` is a Lean
    keyword), and the optional fields are `Option`s. -/
structure MIRecord where
  type : MIRecordType
  token : Option Nat
  cls : Option (List Char)
  results : Option (List MIResult)
  output : Option (List Char)

/-! ## The recursive-descent field-list parser (`GDBMI.parseValue` /
`GDBMI.parseResults`)

The scanning index is embedded as the remaining suffix; `endIndex` is the
returned suffix.  The `while` loops carry fuel: each loop iteration and each
`parseValue` call consumes one unit, and `none` means the fuel ran out. -/

/-- First character class of `/^([a-zA-Z_][a-zA-Z0-9_-]*)=/`. -/
def isNameStart (c : Char) : Bool :=
  ('a' ≤ c ∧ c ≤ 'z') ∨ ('A' ≤ c ∧ c ≤ 'Z') ∨ c = '_'

/-- Continuation character class of the variable-name regex. -/
def isNameChar (c : Char) : Bool :=
  isNameStart c ∨ ('0' ≤ c ∧ c ≤ '9') ∨ c = '-'

/-- The anchored match `/^([a-zA-Z_][a-zA-Z0-9_-]*)=/.exec(str.substring(i))`:
    returns the variable name and the suffix after the `=`, or `none`. -/
def matchVarEq : List Char → Option (List Char × List Char)
  | [] => none
  | c :: rest =>
    if isNameStart c then
      match rest.dropWhile isNameChar with
      | '=' :: rest' => some (c :: rest.takeWhile isNameChar, rest')
      | _ => none
    else none

/-- The `while (i < str.length && (str[i] === ' ' || str[i] === ','))` skip
    loops. -/
def skipSpacesCommas (s : List Char) : List Char :=
  s.dropWhile (fun c => c = ' ' ∨ c = ',')

/-- The string-value scan of `parseValue` (after the opening quote).  It
    mirrors the source exactly: a backslash is dropped and the following
    character is kept raw; on a closing quote the accumulated characters are
    passed through `unescapeString`; for an unterminated string the raw
    accumulator is returned without unescaping. -/
def stringScan : List Char → List Char → Bool → MIValue × List Char
  | [], acc, _ => (.str acc, [])
  | c :: rest, acc, escaped =>
    if escaped then stringScan rest (acc ++ [c]) false
    else if c = '\\' then stringScan rest acc true
    else if c = '"' then (.str (unescapeString acc), rest)
    else stringScan rest (acc ++ [c]) false

/-- The fallback branch of `parseValue`: read up to the next `,`, `}` or `]`
    (or the end), and trim the result. -/
def fallbackScan (s : List Char) : MIValue × List Char :=
  (.str (jsTrim (s.takeWhile (fun c => c ≠ ',' ∧ c ≠ '}' ∧ c ≠ ']'))),
    s.dropWhile (fun c => c ≠ ',' ∧ c ≠ '}' ∧ c ≠ ']'))

mutual

/-- `GDBMI.parseValue(str, i)`, on the suffix `str.substring(i)`. -/
def parseValue (fuel : Nat) (s : List Char) : Option (MIValue × List Char) :=
  match fuel with
  | 0 => none
  | fuel + 1 =>
    match s with
    | '"' :: rest => some (stringScan rest [] false)
    | '{' :: rest =>
      (tupleLoop fuel rest []).map (fun p => (.tuple p.1, p.2.drop 1))
    | '[' :: rest =>
      (listLoop fuel rest []).map (fun p => (.list p.1, p.2.drop 1))
    | _ => some (fallbackScan s)

/-- The tuple-body loop of `parseValue` (`while (i < str.length && str[i] !==
    '}')`).  Note that when the name regex fails to match, the loop body does
    nothing and the cursor does not advance — exactly as in the source, which
    has no stuck-position guard in this branch. -/
def tupleLoop (fuel : Nat) (s : List Char) (acc : List MIResult) :
    Option (List MIResult × List Char) :=
  match fuel with
  | 0 => none
  | fuel + 1 =>
    if s.head? = some '}' ∨ s = [] then some (acc, s)
    else
      let t := skipSpacesCommas s
      if t = [] ∨ t.head? = some '}' then some (acc, t)
      else
        match matchVarEq t with
        | some (name, afterEq) =>
          match parseValue fuel afterEq with
          | none => none
          | some (v, rem) => tupleLoop fuel rem (acc ++ [(name, v)])
        | none => tupleLoop fuel t acc

/-- The list-body loop of `parseValue` (`while (i < str.length && str[i] !==
    ']')`).  A `name=value` element is wrapped into a single-field tuple;
    a bare element is pushed as parsed.  The `i === prevIndex` stuck guard
    (which logs and breaks) is the final `if` in each branch. -/
def listLoop (fuel : Nat) (s : List Char) (acc : List MIValue) :
    Option (List MIValue × List Char) :=
  match fuel with
  | 0 => none
  | fuel + 1 =>
    if s.head? = some ']' ∨ s = [] then some (acc, s)
    else
      let t := skipSpacesCommas s
      if t = [] ∨ t.head? = some ']' then some (acc, t)
      else
        match matchVarEq t with
        | some (name, afterEq) =>
          match parseValue fuel afterEq with
          | none => none
          | some (v, rem) =>
            let acc' := acc ++ [MIValue.tuple [(name, v)]]
            if rem = t then some (acc', rem) else listLoop fuel rem acc'
        | none =>
          match parseValue fuel t with
          | none => none
          | some (v, rem) =>
            let acc' := acc ++ [v]
            if rem = t then some (acc', rem) else listLoop fuel rem acc'

/-- The top-level loop of `GDBMI.parseResults` (breaks when the name regex
    fails to match). -/
def resultsLoop (fuel : Nat) (s : List Char) (acc : List MIResult) :
    Option (List MIResult) :=
  match fuel with
  | 0 => none
  | fuel + 1 =>
    if s = [] then some acc
    else
      let t := skipSpacesCommas s
      if t = [] then some acc
      else
        match matchVarEq t with
        | none => some acc
        | some (name, afterEq) =>
          match parseValue fuel afterEq with
          | none => none
          | some (v, rem) => resultsLoop fuel rem (acc ++ [(name, v)])

end

/-- `GDBMI.parseResults`. -/
def parseResults (fuel : Nat) (s : List Char) : Option (List MIResult) :=
  resultsLoop fuel s []

/-! ## Line-level parsing (`GDBMI.parseLine` and friends) -/

/-- The class-name character class `[a-z-]` of the result/async regexes. -/
def isClassChar (c : Char) : Bool := ('a' ≤ c ∧ c ≤ 'z') ∨ c = '-'

/-- Decimal digit. -/
def isDigit (c : Char) : Bool := '0' ≤ c ∧ c ≤ '9'

/-- Value of a digit run (the token is `parseInt(match[1], 10)`). -/
def digitsToNat (l : List Char) : Nat :=
  l.foldl (fun n c => n * 10 + (c.toNat - '0'.toNat)) 0

/-- `GDBMI.parseResultRecord` — `/^\^([a-z-]+),?(.*)$/`; a failed match
    yields a bare `result` record with only the token. -/
def parseResultRecord (fuel : Nat) (line : List Char) (token : Option Nat) :
    Option MIRecord :=
  match line with
  | '^' :: rest =>
    let cls := rest.takeWhile isClassChar
    if cls = [] then some ⟨.result, token, none, none, none⟩
    else
      let after := rest.dropWhile isClassChar
      let resultsStr := match after with
        | ',' :: r => r
        | _ => after
      if resultsStr = [] then some ⟨.result, token, some cls, some [], none⟩
      else (parseResults fuel resultsStr).map
        (fun rs => ⟨.result, token, some cls, some rs, none⟩)
  | _ => some ⟨.result, token, none, none, none⟩

/-- `GDBMI.parseAsyncRecord` — `/^[*+=]([a-z-]+),?(.*)$/`. -/
def parseAsyncRecord (fuel : Nat) (line : List Char) (type : MIRecordType)
    (token : Option Nat) : Option MIRecord :=
  match line with
  | c :: rest =>
    if c = '*' ∨ c = '+' ∨ c = '=' then
      let cls := rest.takeWhile isClassChar
      if cls = [] then some ⟨type, token, none, none, none⟩
      else
        let after := rest.dropWhile isClassChar
        let resultsStr := match after with
          | ',' :: r => r
          | _ => after
        if resultsStr = [] then some ⟨type, token, some cls, some [], none⟩
        else (parseResults fuel resultsStr).map
          (fun rs => ⟨type, token, some cls, some rs, none⟩)
    else some ⟨type, token, none, none, none⟩
  | [] => some ⟨type, token, none, none, none⟩

/-- `GDBMI.parseStreamRecord` — `/^[~@&]"(.*)"$/`; on a match the capture is
    unescaped, otherwise the output is the line minus its sigil. -/
def parseStreamRecord (line : List Char) (type : MIRecordType) : MIRecord :=
  if 3 ≤ line.length ∧ line.get? 1 = some '"' ∧ line.getLast? = some '"' then
    ⟨type, none, none, none, some (unescapeString ((line.drop 2).dropLast))⟩
  else
    ⟨type, none, none, none, some (line.drop 1)⟩

/-- `GDBMI.parseLine`.  The outer `Option` is the fuel (`none` = the parse
    did not terminate within `fuel` loop iterations); the inner `Option` is
    the TS return value (`null` for blank lines, the prompt line, and
    unparsed lines). -/
def parseLine (fuel : Nat) (line : List Char) : Option (Option MIRecord) :=
  if line = [] ∨ jsTrim line = [] then some none
  else
    let trimmed := jsTrim line
    let digits := trimmed.takeWhile isDigit
    let token := if digits = [] then none else some (digitsToNat digits)
    let rest := trimmed.drop digits.length
    match rest.head? with
    | some '^' => (parseResultRecord fuel rest token).map some
    | some '*' => (parseAsyncRecord fuel rest .exec token).map some
    | some '+' => (parseAsyncRecord fuel rest .status token).map some
    | some '=' => (parseAsyncRecord fuel rest .notify token).map some
    | some '~' => some (some (parseStreamRecord rest .console))
    | some '@' => some (some (parseStreamRecord rest .target))
    | some '&' => some (some (parseStreamRecord rest .log))
    | _ =>
      -- `rest === '(gdb)'` returns null, and so does the final
      -- logged-and-dropped branch.
      some none

/-! ## Record accessors and the stopped-event parser -/

/-- `GDBMI.findResult(results, variable)` (the `results` argument may be
    `undefined` in TS, hence the `Option`). -/
def findResult (results : Option (List MIResult)) (varName : List Char) :
    Option MIValue :=
  match results with
  | none => none
  | some rs => (rs.find? (fun r => r.1 = varName)).map (·.2)

/-- `GDBMI.getStringValue`. -/
def getStringValue : Option MIValue → Option (List Char)
  | some (.str s) => some s
  | _ => none

/-- `GDBMI.getTuple`. -/
def getTuple : Option MIValue → Option (List MIResult)
  | some (.tuple rs) => some rs
  | _ => none

/-- `GDBMI.getList`. -/
def getList : Option MIValue → Option (List MIValue)
  | some (.list vs) => some vs
  | _ => none

/-- JavaScript `parseInt(s, 10)`: skip leading whitespace, optional sign,
    then the leading digit run; `none` models `NaN`. -/
def parseIntJS (s : List Char) : Option Int :=
  let t := s.dropWhile isJsSpace
  match t with
  | '-' :: rest =>
    let ds := rest.takeWhile isDigit
    if ds = [] then none else some (-(digitsToNat ds : Int))
  | '+' :: rest =>
    let ds := rest.takeWhile isDigit
    if ds = [] then none else some (digitsToNat ds : Int)
  | _ =>
    let ds := t.takeWhile isDigit
    if ds = [] then none else some (digitsToNat ds : Int)

/-- `GDBStackFrame`. -/
structure GDBStackFrame where
  level : Int
  addr : List Char
  func : List Char
  file : Option (List Char)
  fullname : Option (List Char)
  line : Option Int

/-- A TS pattern `x ? f(x) : undefined` where the guard is string truthiness
    (`undefined` and the empty string are both falsy). -/
def ifTruthy (s : Option (List Char)) (f : List Char → α) : Option α :=
  match s with
  | some l => if l = [] then none else some (f l)
  | none => none

/-- `GDBMI.parseStackFrame`. -/
def parseStackFrame (results : List MIResult) : GDBStackFrame :=
  { level := (ifTruthy (getStringValue (findResult (some results) (chars "level")))
      parseIntJS).join.getD 0
    addr := (getStringValue (findResult (some results) (chars "addr"))).getD (chars "0x0")
    func := (getStringValue (findResult (some results) (chars "func"))).getD (chars "??")
    file := getStringValue (findResult (some results) (chars "file"))
    fullname := getStringValue (findResult (some results) (chars "fullname"))
    line := (ifTruthy (getStringValue (findResult (some results) (chars "line")))
      parseIntJS).join }

/-- `GDBStoppedEvent`. -/
structure GDBStoppedEvent where
  reason : List Char
  threadId : Option Int
  breakpointId : Option Int
  signal : Option (List Char)
  exitCode : Option Int
  frame : Option GDBStackFrame

/-- `GDBMI.parseStoppedEvent`.  The TS reads
    `getStringValue(findResult(results, 'reason')) || 'signal-received'`:
    a missing, non-string, or empty `reason` defaults to
    `signal-received`. -/
def parseStoppedEvent (results : List MIResult) : GDBStoppedEvent :=
  { reason :=
      match getStringValue (findResult (some results) (chars "reason")) with
      | some r => if r = [] then chars "signal-received" else r
      | none => chars "signal-received"
    threadId :=
      (ifTruthy (getStringValue (findResult (some results) (chars "thread-id")))
        parseIntJS).join
    breakpointId :=
      (ifTruthy (getStringValue (findResult (some results) (chars "bkptno")))
        parseIntJS).join
    signal := getStringValue (findResult (some results) (chars "signal-name"))
    exitCode :=
      (ifTruthy (getStringValue (findResult (some results) (chars "exit-code")))
        parseIntJS).join
    frame := (getTuple (findResult (some results) (chars "frame"))).map parseStackFrame }

/-! ## The record dispatcher of the rich debug session
(`RemoteGDBDebugSession.handleMIRecord` / `handleStopped` / the pending
command table of `sendGDBCommand`)

The TS pending table maps a token to its `resolve`/`reject` closures; here it
is the list of outstanding tokens, and settling a closure is reported as an
explicit `DebugEvent`. -/

/-- The mutable session state touched by the dispatcher. -/
structure AdapterState where
  pendingCommands : List Nat
  isRunning : Bool

/-- Observable effects of dispatching one record (or firing one timeout). -/
inductive DebugEvent where
  | commandResolved : Nat → MIRecord → DebugEvent
  | commandRejected : Nat → List Char → DebugEvent
  | terminated : DebugEvent
  | stopped : List Char → DebugEvent
  | output : List Char → DebugEvent

/-- `RemoteGDBDebugSession.handleStopped`: exit reasons short-circuit to a
    `TerminatedEvent`; otherwise the stop reason is mapped and a
    `StoppedEvent` is sent. -/
def handleStopped (event : GDBStoppedEvent) : DebugEvent :=
  if event.reason = chars "exited-normally" ∨ event.reason = chars "exited" then
    .terminated
  else
    .stopped
      (if event.reason = chars "breakpoint-hit" then chars "breakpoint"
       else if event.reason = chars "end-stepping-range" then chars "step"
       else if event.reason = chars "signal-received" then chars "exception"
       else chars "pause")

/-- The rejection message of the `error` branch:
    `msg || 'GDB command failed'` (the empty string is falsy). -/
def errorMessage (record : MIRecord) : List Char :=
  match getStringValue (findResult record.results (chars "msg")) with
  | some m => if m = [] then chars "GDB command failed" else m
  | none => chars "GDB command failed"

/-- `pendingCommands.delete(token)` (tokens are unique map keys). -/
def removeToken (t : Nat) (pending : List Nat) : List Nat :=
  pending.filter (fun x => x ≠ t)

/-- `RemoteGDBDebugSession.handleMIRecord`. -/
def handleMIRecord (st : AdapterState) (record : MIRecord) :
    AdapterState × List DebugEvent :=
  match record.type with
  | .result =>
    match record.token with
    | some t =>
      if t ∈ st.pendingCommands then
        let st' : AdapterState := ⟨removeToken t st.pendingCommands, st.isRunning⟩
        if record.cls = some (chars "done") ∨ record.cls = some (chars "running") then
          (st', [.commandResolved t record])
        else if record.cls = some (chars "error") then
          (st', [.commandRejected t (errorMessage record)])
        else
          (st', [.commandResolved t record])
      else (st, [])
    | none => (st, [])
  | .exec =>
    if record.cls = some (chars "stopped") then
      (⟨st.pendingCommands, false⟩,
        [handleStopped (parseStoppedEvent (record.results.getD []))])
    else if record.cls = some (chars "running") then
      (⟨st.pendingCommands, true⟩, [])
    else (st, [])
  | .console =>
    match record.output with
    | some o => if o = [] then (st, []) else (st, [.output o])
    | none => (st, [])
  | .target =>
    match record.output with
    | some o => if o = [] then (st, []) else (st, [.output o])
    | none => (st, [])
  | .log => (st, [])
  | .status => (st, [])
  | .notify => (st, [])

/-- The fixed per-command timeout of `sendGDBCommand` (milliseconds). -/
def gdbCommandTimeoutMs : Nat := 5000

/-- The timeout callback of `sendGDBCommand`: if the token is still pending
    it is deleted and the command rejected with `Command timeout: <command>`;
    otherwise nothing happens. -/
def timeoutFire (st : AdapterState) (t : Nat) (command : List Char) :
    AdapterState × Option DebugEvent :=
  if t ∈ st.pendingCommands then
    (⟨removeToken t st.pendingCommands, st.isRunning⟩,
      some (.commandRejected t (chars "Command timeout: " ++ command)))
  else (st, none)

/-! ## Association-list model of JavaScript `Map` (insertion-ordered,
unique keys) -/

/-- `Map.get`. -/
def mapGet [BEq α] (m : List (α × β)) (k : α) : Option β :=
  (m.find? (fun p => p.1 == k)).map (·.2)

/-- `Map.set`: overwriting keeps the original position, a new key is
    appended. -/
def mapSet [BEq α] (k : α) (v : β) : List (α × β) → List (α × β)
  | [] => [(k, v)]
  | (k', v') :: rest =>
    if k' == k then (k', v) :: rest else (k', v') :: mapSet k v rest

/-- `Map.delete`. -/
def mapDelete [BEq α] (k : α) (m : List (α × β)) : List (α × β) :=
  m.filter (fun p => !(p.1 == k))

/-! ## Breakpoint bookkeeping (`setBreakpointsRequest`,
`getGdbBreakpointId`, `rememberGdbBreakpoint`)

`sendGDBCommand` is abstracted by a deterministic response oracle
`resp : command ↦ Except message record`, an `error` result standing for
either an `^error` rejection or a command timeout. -/

/-- Per-file bindings: VSCode line ↦ GDB breakpoint id. -/
abbrev BpBindings := List (Nat × Int)

/-- `gdbBreakpoints`: file path ↦ per-file bindings. -/
abbrev GdbBreakpoints := List (List Char × BpBindings)

/-- `RemoteGDBDebugSession.getGdbBreakpointNumberFromTuple`. -/
def getGdbBreakpointNumberFromTuple (results : List MIResult) : Option Int :=
  match getStringValue (findResult (some results) (chars "number")) with
  | none => none
  | some numberStr =>
    if numberStr = [] then none
    else parseIntJS numberStr

/-- First parseable breakpoint number among a list value's tuples. -/
def firstTupleNumber : List MIValue → Option Int
  | [] => none
  | v :: rest =>
    match getTuple (some v) with
    | some rs =>
      match getGdbBreakpointNumberFromTuple rs with
      | some n => some n
      | none => firstTupleNumber rest
    | none => firstTupleNumber rest

/-- `RemoteGDBDebugSession.getGdbBreakpointId`: the numeric id from the
    result's `bkpt` value (a tuple, or the first suitable tuple of a
    list). -/
def getGdbBreakpointId (record : MIRecord) : Option Int :=
  match findResult record.results (chars "bkpt") with
  | none => none
  | some bkptValue =>
    match getTuple (some bkptValue) with
    | some rs => getGdbBreakpointNumberFromTuple rs
    | none =>
      match getList (some bkptValue) with
      | some vs => firstTupleNumber vs
      | none => none

/-- `RemoteGDBDebugSession.rememberGdbBreakpoint` (the `line === undefined`
    guard never fires here: DAP source breakpoints always carry a line). -/
def rememberGdbBreakpoint (path : List Char) (line : Nat) (gdbId : Int)
    (tbl : GdbBreakpoints) : GdbBreakpoints :=
  mapSet path (mapSet line gdbId ((mapGet tbl path).getD [])) tbl

/-- A `DebugProtocol.Breakpoint` as built by the handler: `verified`, the
    requested line, and the id when one was parsed. -/
structure BpResult where
  verified : Bool
  line : Nat
  id : Option Int
deriving DecidableEq

/-- The wire text of one `break-delete` command. -/
def breakDeleteCmd (gdbId : Int) : List Char :=
  chars "break-delete " ++ (toString gdbId).data

/-- The wire text of one `break-insert` command. -/
def breakInsertCmd (remotePath : List Char) (line : Nat) : List Char :=
  chars "break-insert " ++ remotePath ++ chars ":" ++ (toString line).data

/-- Await the listed commands in order; the first rejection aborts the
    handler (the delete loop is not wrapped in `try`). -/
def runCommands (resp : List Char → Except (List Char) MIRecord) :
    List (List Char) → Option (List Char)
  | [] => none
  | c :: rest =>
    match resp c with
    | .error e => some e
    | .ok _ => runCommands resp rest

/-- The insert loop of `setBreakpointsRequest`: one `break-insert` per
    requested line; a success is verified (and bound when an id parses), a
    failure is unverified. -/
def insertLoop (resp : List Char → Except (List Char) MIRecord)
    (path remotePath : List Char) (lines : List Nat) (tbl : GdbBreakpoints)
    (bps : List BpResult) (cmds : List (List Char)) :
    GdbBreakpoints × List BpResult × List (List Char) :=
  match lines with
  | [] => (tbl, bps, cmds)
  | l :: rest =>
    let cmd := breakInsertCmd remotePath l
    match resp cmd with
    | .ok record =>
      match getGdbBreakpointId record with
      | some gdbId =>
        insertLoop resp path remotePath rest
          (rememberGdbBreakpoint path l gdbId tbl)
          (bps ++ [⟨true, l, some gdbId⟩]) (cmds ++ [cmd])
      | none =>
        insertLoop resp path remotePath rest tbl
          (bps ++ [⟨true, l, none⟩]) (cmds ++ [cmd])
    | .error _ =>
      insertLoop resp path remotePath rest tbl
        (bps ++ [⟨false, l, none⟩]) (cmds ++ [cmd])

/-- `RemoteGDBDebugSession.setBreakpointsRequest`, for a session whose GDB
    channel is up: delete every previously recorded binding for the file,
    drop the file's entry, then insert the requested lines.  Returns the new
    table, the reported breakpoints, and the commands issued in order. -/
def setBreakpointsRequest (resp : List Char → Except (List Char) MIRecord)
    (tbl : GdbBreakpoints) (path remotePath : List Char) (lines : List Nat) :
    Except (List Char) (GdbBreakpoints × List BpResult × List (List Char)) :=
  let deleteCmds := ((mapGet tbl path).getD []).map (fun p => breakDeleteCmd p.2)
  match runCommands resp deleteCmds with
  | some e => .error e
  | none =>
    let r := insertLoop resp path remotePath lines (mapDelete path tbl) [] []
    .ok (r.1, r.2.1, deleteCmds ++ r.2.2)

/-! ## The SSH manager's bounded reconnection policy (`sshManager.ts`) -/

/-- `SSHSessionState`. -/
inductive SSHSessionState where
  | disconnected | connecting | connected | reconnecting | failed
deriving DecidableEq

/-- `SSHConnectionDetails` (the private-key path is irrelevant here). -/
structure SSHConnectionDetails where
  host : List Char
  hostname : List Char
  port : Nat
  username : List Char

/-- `SSHManager.getSessionKey`. -/
def getSessionKey (d : SSHConnectionDetails) : List Char :=
  d.username ++ chars "@" ++ d.hostname ++ chars ":" ++ (toString d.port).data

/-- The manager state touched by the disconnect path: per-key session state
    and per-key reconnect-attempt counter. -/
structure SSHManagerState where
  sessions : List (List Char × SSHSessionState)
  reconnectAttempts : List (List Char × Nat)

/-- Observable effects of the disconnect path.  `scheduleReconnect key d`
    stands for the `setTimeout`-delayed call of the full connect logic that
    `attemptReconnect` performs after `d` milliseconds. -/
inductive SSHEvent where
  | disconnected : List Char → SSHEvent
  | reconnectFailed : List Char → SSHEvent
  | scheduleReconnect : List Char → Nat → SSHEvent
deriving DecidableEq

/-- `maxReconnectAttempts`. -/
def maxReconnectAttempts : Nat := 3

/-- `reconnectDelay` (milliseconds). -/
def reconnectDelay : Nat := 2000

/-- `SSHManager.handleDisconnect`, with the synchronous prefix of
    `attemptReconnect` (mark `Reconnecting`, bump the counter, start the
    fixed-delay timer) folded in.  Emits `disconnected`, then either
    schedules exactly one reconnect attempt or emits the terminal
    `reconnectFailed`. -/
def handleDisconnect (st : SSHManagerState) (details : SSHConnectionDetails) :
    SSHManagerState × List SSHEvent :=
  let key := getSessionKey details
  match mapGet st.sessions key with
  | none => (st, [])
  | some _ =>
    let st1 : SSHManagerState :=
      ⟨mapSet key .disconnected st.sessions, st.reconnectAttempts⟩
    let attempts := (mapGet st.reconnectAttempts key).getD 0
    if attempts < maxReconnectAttempts then
      (⟨mapSet key .reconnecting st1.sessions,
         mapSet key (attempts + 1) st1.reconnectAttempts⟩,
        [.disconnected details.host, .scheduleReconnect key reconnectDelay])
    else
      (st1, [.disconnected details.host, .reconnectFailed details.host])

/-- Iterate `handleDisconnect` for the same host `n` times (each transport
    close after a failed reconnect attempt re-enters `handleDisconnect`),
    collecting every emitted event. -/
def runDisconnects (details : SSHConnectionDetails) :
    Nat → SSHManagerState → SSHManagerState × List SSHEvent
  | 0, st => (st, [])
  | n + 1, st =>
    let r := handleDisconnect st details
    let r' := runDisconnects details n r.1
    (r'.1, r.2 ++ r'.2)

/-! ## The path-translation collaborator (`utils/pathMapper.ts`)

`resolveLocalPath` substitutes editor variables from the environment; the
mappings here are taken post-resolution. -/

/-- `PathMapper.normalizePath`: backslashes become slashes, and one trailing
    slash is removed (except from `"/"` itself). -/
def normalizePath (p : List Char) : List Char :=
  let n := p.map (fun c => if c = '\\' then '/' else c)
  if n.getLast? = some '/' ∧ 1 < n.length then n.dropLast else n

/-- Split a path into `/`-separated segments. -/
def splitSlash (p : List Char) : List (List Char) :=
  p.splitOn '/'

/-- Segment processing of Node `path.posix.normalize`: drop empty and `.`
    segments and resolve `..`. -/
def normSegs (isAbs : Bool) : List (List Char) → List (List Char) → List (List Char)
  | acc, [] => acc
  | acc, seg :: rest =>
    if seg = [] ∨ seg = ['.'] then normSegs isAbs acc rest
    else if seg = ['.', '.'] then
      match acc.getLast? with
      | some last =>
        if last = ['.', '.'] then normSegs isAbs (acc ++ [seg]) rest
        else normSegs isAbs acc.dropLast rest
      | none =>
        if isAbs then normSegs isAbs acc rest
        else normSegs isAbs (acc ++ [seg]) rest
    else normSegs isAbs (acc ++ [seg]) rest

/-- Model of Node `path.posix.join` on two segments, as used by
    `toLocalPath`: concatenate with a separator and normalize. -/
def posixJoin (a b : List Char) : List Char :=
  if a = [] ∧ b = [] then ['.']
  else
    let joined := if a = [] then b else if b = [] then a else a ++ '/' :: b
    let isAbs := joined.head? = some '/'
    let hadTrail := joined.getLast? = some '/'
    let segs := normSegs isAbs [] (splitSlash joined)
    let core := (segs.intersperse ['/']).flatten
    let base :=
      if isAbs then '/' :: core
      else if core = [] then ['.']
      else core
    if hadTrail ∧ base.getLast? ≠ some '/' then base ++ ['/'] else base

/-- The `localToRemote` / `remoteToLocal` tables of `PathMapper`. -/
structure PathMapper where
  localToRemote : List (List Char × List Char)
  remoteToLocal : List (List Char × List Char)

/-- A mapper with no source map. -/
def PathMapper.empty : PathMapper := ⟨[], []⟩

/-- `PathMapper.addMapping` (paths already variable-resolved). -/
def addMapping (m : PathMapper) (localPath remotePath : List Char) : PathMapper :=
  ⟨mapSet (normalizePath localPath) (normalizePath remotePath) m.localToRemote,
    mapSet (normalizePath remotePath) (normalizePath localPath) m.remoteToLocal⟩

/-- The entry scan of `toRemotePath`: first entry (in insertion order) whose
    key equals the normalized path or is a proper `/`-separated prefix of
    it wins. -/
def toRemotePathAux : List (List Char × List Char) → List Char → Option (List Char)
  | [], _ => none
  | (localKey, remote) :: rest, normalized =>
    if normalized = localKey then some remote
    else if (localKey ++ ['/']).isPrefixOf normalized then
      some (remote ++ '/' :: normalized.drop (localKey.length + 1))
    else toRemotePathAux rest normalized

/-- `PathMapper.toRemotePath`; with no matching entry the input is returned
    unchanged. -/
def PathMapper.toRemotePath (m : PathMapper) (localPath : List Char) : List Char :=
  (toRemotePathAux m.localToRemote (normalizePath localPath)).getD localPath

/-- The entry scan of `toLocalPath` (uses `path.join` for the relative
    part). -/
def toLocalPathAux : List (List Char × List Char) → List Char → Option (List Char)
  | [], _ => none
  | (remoteKey, localKey) :: rest, normalized =>
    if normalized = remoteKey then some localKey
    else if (remoteKey ++ ['/']).isPrefixOf normalized then
      some (posixJoin localKey (normalized.drop (remoteKey.length + 1)))
    else toLocalPathAux rest normalized

/-- `PathMapper.toLocalPath`. -/
def PathMapper.toLocalPath (m : PathMapper) (remotePath : List Char) : List Char :=
  (toLocalPathAux m.remoteToLocal (normalizePath remotePath)).getD remotePath

/-! ## Specification-side helper functions used by the theorem statements -/

/-- A string accepted by the variable-name regex. -/
def validName : List Char → Bool
  | [] => false
  | c :: rest => isNameStart c && rest.all isNameChar

/-- A character that the quoted-string scanner passes through untouched. -/
def plainChar (c : Char) : Bool := c ≠ '\\' && c ≠ '"'

/-- Intermediate per-character expansions after each global-replace pass of
    `unescapeString`: after pass 1 the `\n` escape is gone, … -/
def escStage1 (c : Char) : List Char :=
  if c = '\n' then ['\n'] else escapeChar c

/-- After passes 1–2 (`\n`, `\r`). -/
def escStage2 (c : Char) : List Char :=
  if c = '\r' then ['\r'] else escStage1 c

/-- After passes 1–3 (`\n`, `\r`, `\t`). -/
def escStage3 (c : Char) : List Char :=
  if c = '\t' then ['\t'] else escStage2 c

/-- After passes 1–4 (`\n`, `\r`, `\t`, `\"`); only `\\` remains escaped. -/
def escStage4 (c : Char) : List Char :=
  if c = '"' then ['"'] else escStage3 c

/-- The outcome of one `break-insert`, as reported to the editor. -/
def bpOutcome (resp : List Char → Except (List Char) MIRecord)
    (remotePath : List Char) (l : Nat) : BpResult :=
  match resp (breakInsertCmd remotePath l) with
  | .ok record =>
    match getGdbBreakpointId record with
    | some gdbId => ⟨true, l, some gdbId⟩
    | none => ⟨true, l, none⟩
  | .error _ => ⟨false, l, none⟩

/-- The id recorded for one `break-insert` (when it succeeds and an id can be
    parsed out of its result). -/
def insertOutcomeId (resp : List Char → Except (List Char) MIRecord)
    (remotePath : List Char) (l : Nat) : Option Int :=
  match resp (breakInsertCmd remotePath l) with
  | .ok record => getGdbBreakpointId record
  | .error _ => none

/-- Whether a mapping-table key matches a normalized path: equal, or a
    proper prefix followed by a `/` separator. -/
def keyMatches (key normalized : List Char) : Bool :=
  normalized = key || (key ++ ['/']).isPrefixOf normalized

/-- A concrete response oracle for exercising `setBreakpointsRequest`:
    deletes succeed, inserting line 20 succeeds with breakpoint number 5,
    anything else fails. -/
def c7ExampleResp : List Char → Except (List Char) MIRecord := fun cmd =>
  if cmd = breakDeleteCmd 1 ∨ cmd = breakDeleteCmd 2 then
    .ok ⟨.result, some 1, some (chars "done"), some [], none⟩
  else if cmd = breakInsertCmd (chars "/r/t.c") 20 then
    .ok ⟨.result, some 2, some (chars "done"),
      some [(chars "bkpt", .tuple [(chars "number", .str (chars "5"))])], none⟩
  else .error (chars "No source file")

/-- A breakpoint table with two recorded bindings for `/l/t.c`. -/
def c7ExampleTbl : GdbBreakpoints := [(chars "/l/t.c", [(10, 1), (20, 2)])]

/-- Dispatch a sequence of records (the event-loop view: each parsed line's
    record is handed to `handleMIRecord` in arrival order), collecting every
    emitted event. -/
def runRecords (st : AdapterState) : List MIRecord → AdapterState × List DebugEvent
  | [] => (st, [])
  | r :: rest =>
    ((runRecords (handleMIRecord st r).1 rest).1,
      (handleMIRecord st r).2 ++ (runRecords (handleMIRecord st r).1 rest).2)

/-- Specification of the list-body normalization, following the claim's
    words: the items of a parsed `[...]` body arise element by element — an
    element that is a `name=value` pair (the name regex matches at the
    element start) contributes the single-field Tuple wrapping that pair,
    never the bare pair, and a bare element contributes its parsed value
    as-is.  (Bare pairs are not even representable: `MIValue` is the closed
    union String/Tuple/List.) -/
inductive ListItems : List Char → List MIValue → Prop where
  | nil (s : List Char) : ListItems s []
  | named (s nm afterEq : List Char) (f : Nat) (v : MIValue) (rem : List Char)
      (items : List MIValue)
      (hm : matchVarEq (skipSpacesCommas s) = some (nm, afterEq))
      (hv : parseValue f afterEq = some (v, rem))
      (htail : ListItems rem items) :
      ListItems s (MIValue.tuple [(nm, v)] :: items)
  | bare (s : List Char) (f : Nat) (v : MIValue) (rem : List Char)
      (items : List MIValue)
      (hm : matchVarEq (skipSpacesCommas s) = none)
      (hv : parseValue f (skipSpacesCommas s) = some (v, rem))
      (htail : ListItems rem items) :
      ListItems s (v :: items)

/-! ## Helper lemmas -/

theorem mapGet_mapSet_self [BEq α] [LawfulBEq α] (k : α) (v : β) (m : List (α × β)) :
    mapGet (mapSet k v m) k = some v := by
  induction m with
  | nil => simp [mapSet, mapGet, List.find?]
  | cons p rest ih =>
    obtain ⟨k', v'⟩ := p
    by_cases h : k' = k
    · subst h
      simp [mapSet, mapGet, List.find?]
    · have hb : (k' == k) = false := beq_eq_false_iff_ne.mpr h
      simp only [mapSet, hb, if_false, Bool.false_eq_true]
      simpa [mapGet, List.find?_cons, hb] using ih

theorem mapGet_mapSet_ne [BEq α] [LawfulBEq α] (k k' : α) (v : β) (m : List (α × β))
    (h : k' ≠ k) : mapGet (mapSet k v m) k' = mapGet m k' := by
  induction m with
  | nil => simp [mapSet, mapGet, List.find?, beq_eq_false_iff_ne.mpr (fun e => h e.symm)]
  | cons p rest ih =>
    obtain ⟨a, b⟩ := p
    by_cases ha : a = k
    · subst ha
      have hb : (a == k') = false := beq_eq_false_iff_ne.mpr (fun e => h e.symm)
      simp [mapSet, mapGet, List.find?_cons, hb]
    · have hb : (a == k) = false := beq_eq_false_iff_ne.mpr ha
      simp only [mapSet, hb, Bool.false_eq_true, if_false]
      by_cases hak : a = k'
      · subst hak
        simp [mapGet, List.find?_cons]
      · have hb' : (a == k') = false := beq_eq_false_iff_ne.mpr hak
        simpa [mapGet, List.find?_cons, hb'] using ih

theorem mem_keys_mapSet [BEq α] [LawfulBEq α] (k a : α) (v : β) (m : List (α × β))
    (h : a ∈ (mapSet k v m).map Prod.fst) : a ∈ m.map Prod.fst ∨ a = k := by
  induction m with
  | nil =>
    simp [mapSet] at h
    exact Or.inr h
  | cons p rest ih =>
    obtain ⟨k', v'⟩ := p
    by_cases hk : k' == k
    · simp only [mapSet, hk, if_true, List.map_cons] at h
      simpa [List.map_cons] using Or.inl h
    · simp only [mapSet, hk, Bool.false_eq_true, if_false, List.map_cons,
        List.mem_cons] at h ⊢
      rcases h with h | h
      · exact Or.inl (Or.inl h)
      · rcases ih h with h' | h'
        · exact Or.inl (Or.inr h')
        · exact Or.inr h'

theorem nodup_keys_mapSet [BEq α] [LawfulBEq α] (k : α) (v : β) (m : List (α × β))
    (h : (m.map Prod.fst).Nodup) : ((mapSet k v m).map Prod.fst).Nodup := by
  induction m with
  | nil => simp [mapSet]
  | cons p rest ih =>
    obtain ⟨k', v'⟩ := p
    simp only [List.map_cons, List.nodup_cons] at h
    by_cases hk : k' == k
    · simp only [mapSet, hk, if_true, List.map_cons, List.nodup_cons]
      exact h
    · simp only [mapSet, hk, Bool.false_eq_true, if_false, List.map_cons,
        List.nodup_cons]
      refine ⟨fun hmem => ?_, ih h.2⟩
      rcases mem_keys_mapSet k k' v rest hmem with h' | h'
      · exact h.1 h'
      · exact hk (beq_iff_eq.mpr h')

theorem not_mem_removeToken (t : Nat) (l : List Nat) : t ∉ removeToken t l := by
  simp [removeToken, List.mem_filter]

/-- `handleStopped` only ever produces a `terminated` or a `stopped`
    event. -/
theorem handleStopped_shape (ev : GDBStoppedEvent) :
    handleStopped ev = .terminated ∨ ∃ r, handleStopped ev = .stopped r := by
  unfold handleStopped
  by_cases h : ev.reason = chars "exited-normally" ∨ ev.reason = chars "exited"
  · exact Or.inl (if_pos h)
  · exact Or.inr ⟨_, if_neg h⟩

/-! ## C10 — a reason-less stop defaults to `signal-received`, hence an
`exception` stop -/

/-- C10: an exec-async `stopped` record with no `reason` field is given the
    default reason `signal-received` by `parseStoppedEvent`, and
    `handleStopped` therefore reports an `exception` stop (not a `pause`). -/
theorem parseStoppedEvent_default_reason (results : List MIResult)
    (h : findResult (some results) (chars "reason") = none) :
    (parseStoppedEvent results).reason = chars "signal-received"
    ∧ handleStopped (parseStoppedEvent results) = .stopped (chars "exception") := by
  have hr : (parseStoppedEvent results).reason = chars "signal-received" := by
    simp [parseStoppedEvent, h, getStringValue]
  refine ⟨hr, ?_⟩
  simp only [handleStopped, hr, if_true]
  rw [if_neg (by decide), if_neg (by decide), if_neg (by decide)]

/-- C10 witness: the empty field list. -/
theorem parseStoppedEvent_default_reason_witness :
    (parseStoppedEvent []).reason = chars "signal-received"
    ∧ handleStopped (parseStoppedEvent []) = .stopped (chars "exception") :=
  parseStoppedEvent_default_reason [] rfl

/-! ## C6 — the stop-reason mapping and exit reasons -/

/-- C6 counterexample: `exited-signalled` contains `"exited"`, but the code
    compares only for equality with `exited-normally`/`exited`, so the
    record produces a `pause` stop rather than a termination. -/
theorem handleStopped_exited_signalled :
    handleStopped
        (parseStoppedEvent [(chars "reason", MIValue.str (chars "exited-signalled"))])
      = DebugEvent.stopped (chars "pause")
    ∧ (∃ pre post, chars "exited-signalled" = pre ++ chars "exited" ++ post)
    ∧ DebugEvent.stopped (chars "pause") ≠ DebugEvent.terminated := by
  refine ⟨rfl, ⟨[], chars "-signalled", by decide⟩, by simp⟩

/-- C6 (amended): reasons exactly equal to `exited-normally` or `exited`
    produce a Terminated transition; every other reason — including other
    variants containing `"exited"` such as `exited-signalled` — goes through
    the stop-reason mapping (`breakpoint-hit → breakpoint`,
    `end-stepping-range → step`, `signal-received → exception`, anything
    else → `pause`). -/
theorem handleStopped_mapping (ev : GDBStoppedEvent) :
    (ev.reason = chars "exited-normally" ∨ ev.reason = chars "exited" →
      handleStopped ev = .terminated)
    ∧ (ev.reason ≠ chars "exited-normally" → ev.reason ≠ chars "exited" →
        (ev.reason = chars "breakpoint-hit" →
          handleStopped ev = .stopped (chars "breakpoint"))
        ∧ (ev.reason = chars "end-stepping-range" →
          handleStopped ev = .stopped (chars "step"))
        ∧ (ev.reason = chars "signal-received" →
          handleStopped ev = .stopped (chars "exception"))
        ∧ (ev.reason ≠ chars "breakpoint-hit" →
            ev.reason ≠ chars "end-stepping-range" →
            ev.reason ≠ chars "signal-received" →
          handleStopped ev = .stopped (chars "pause"))) := by
  unfold handleStopped
  constructor
  · intro h
    rw [if_pos h]
  · intro h1 h2
    rw [if_neg (by tauto)]
    refine ⟨fun h => ?_, fun h => ?_, fun h => ?_, fun h3 h4 h5 => ?_⟩
    · rw [if_pos h]
    · have n1 : ¬ ev.reason = chars "breakpoint-hit" := by rw [h]; decide
      rw [if_neg n1, if_pos h]
    · have n1 : ¬ ev.reason = chars "breakpoint-hit" := by rw [h]; decide
      have n2 : ¬ ev.reason = chars "end-stepping-range" := by rw [h]; decide
      rw [if_neg n1, if_neg n2, if_pos h]
    · rw [if_neg h3, if_neg h4, if_neg h5]

/-- C6 witness: a genuine exit reason terminates; `breakpoint-hit` maps to
    `breakpoint`. -/
theorem handleStopped_mapping_witness :
    handleStopped ⟨chars "exited", none, none, none, none, none⟩ = .terminated
    ∧ handleStopped ⟨chars "breakpoint-hit", none, none, none, none, none⟩
        = .stopped (chars "breakpoint") :=
  ⟨(handleStopped_mapping _).1 (Or.inr rfl),
   ((handleStopped_mapping _).2 (by decide) (by decide)).1 rfl⟩

/-! ## C2 — non-result records and unmatched tokens never touch the pending
table -/

/-- One dispatch step: a record that is not a result record, a result record
    with no token, and a result record whose token is not outstanding all
    leave the pending-command table unchanged and settle no pending
    command. -/
theorem handleMIRecord_nonmatching_step (st : AdapterState) (record : MIRecord)
    (h : record.type ≠ .result ∨ record.token = none ∨
      ∀ t, record.token = some t → t ∉ st.pendingCommands) :
    (handleMIRecord st record).1.pendingCommands = st.pendingCommands
    ∧ ∀ e ∈ (handleMIRecord st record).2,
        (∀ t r, e ≠ DebugEvent.commandResolved t r)
        ∧ (∀ t m, e ≠ DebugEvent.commandRejected t m) := by
  obtain ⟨type, token, cls, results, output⟩ := record
  cases type with
  | result =>
    cases token with
    | none => simp [handleMIRecord]
    | some t =>
      have hmem : t ∉ st.pendingCommands := by
        rcases h with h | h | h
        · exact absurd rfl h
        · exact absurd h (by simp)
        · exact h t rfl
      simp [handleMIRecord, hmem]
  | exec =>
    refine ⟨?_, ?_⟩
    · simp only [handleMIRecord]
      split
      · rfl
      · split <;> rfl
    · intro e he
      simp only [handleMIRecord] at he
      by_cases h1 : cls = some (chars "stopped")
      · rw [if_pos h1] at he
        simp only [List.mem_singleton] at he
        subst he
        rcases handleStopped_shape (parseStoppedEvent (results.getD [])) with h2 | ⟨r, h2⟩ <;>
          rw [h2] <;> exact ⟨fun _ _ => by simp, fun _ _ => by simp⟩
      · rw [if_neg h1] at he
        split at he <;> simp at he
  | console =>
    refine ⟨?_, ?_⟩
    · simp only [handleMIRecord]
      split
      · split <;> rfl
      · rfl
    · intro e he
      simp only [handleMIRecord] at he
      split at he
      · split at he
        · simp at he
        · simp only [List.mem_singleton] at he
          subst he
          exact ⟨fun _ _ => by simp, fun _ _ => by simp⟩
      · simp at he
  | target =>
    refine ⟨?_, ?_⟩
    · simp only [handleMIRecord]
      split
      · split <;> rfl
      · rfl
    · intro e he
      simp only [handleMIRecord] at he
      split at he
      · split at he
        · simp at he
        · simp only [List.mem_singleton] at he
          subst he
          exact ⟨fun _ _ => by simp, fun _ _ => by simp⟩
      · simp at he
  | log => simp [handleMIRecord]
  | status => simp [handleMIRecord]
  | notify => simp [handleMIRecord]

/-- C2: across any sequence of records that are not result records (stream
    records from `~`/`@`/`&` lines and async records from `*`/`+`/`=`
    lines), or that are result records whose token has no outstanding
    pending command, the dispatcher leaves the pending-command table
    unchanged and never resolves or rejects any pending command: no
    settle event is emitted and every previously pending token is still
    pending afterwards (so an interleaved stream record can never resolve a
    command sent before it, and a late record for a retired token resolves
    nothing). -/
theorem handleMIRecord_preserves_pending (st : AdapterState) (rs : List MIRecord)
    (h : ∀ r ∈ rs, r.type ≠ .result ∨ r.token = none ∨
      ∀ t, r.token = some t → t ∉ st.pendingCommands) :
    (runRecords st rs).1.pendingCommands = st.pendingCommands
    ∧ (∀ e ∈ (runRecords st rs).2,
        (∀ t record, e ≠ DebugEvent.commandResolved t record)
        ∧ (∀ t m, e ≠ DebugEvent.commandRejected t m))
    ∧ ∀ t, t ∈ st.pendingCommands → t ∈ (runRecords st rs).1.pendingCommands := by
  induction rs generalizing st with
  | nil => exact ⟨rfl, by simp [runRecords], fun t ht => ht⟩
  | cons r rest ih =>
    have hstep := handleMIRecord_nonmatching_step st r (h r (List.mem_cons_self r rest))
    have hrest : ∀ r' ∈ rest, r'.type ≠ .result ∨ r'.token = none ∨
        ∀ t, r'.token = some t → t ∉ (handleMIRecord st r).1.pendingCommands := by
      intro r' hr'
      rcases h r' (List.mem_cons_of_mem r hr') with h1 | h1 | h1
      · exact Or.inl h1
      · exact Or.inr (Or.inl h1)
      · exact Or.inr (Or.inr (fun t ht => by rw [hstep.1]; exact h1 t ht))
    have ihr := ih (handleMIRecord st r).1 hrest
    refine ⟨?_, ?_, ?_⟩
    · show (runRecords (handleMIRecord st r).1 rest).1.pendingCommands
        = st.pendingCommands
      rw [ihr.1, hstep.1]
    · intro e he
      have he' : e ∈ (handleMIRecord st r).2
          ++ (runRecords (handleMIRecord st r).1 rest).2 := he
      rcases List.mem_append.mp he' with h1 | h1
      · exact hstep.2 e h1
      · exact ihr.2.1 e h1
    · intro t ht
      show t ∈ (runRecords (handleMIRecord st r).1 rest).1.pendingCommands
      have : t ∈ (handleMIRecord st r).1.pendingCommands := by
        rw [hstep.1]; exact ht
      exact ihr.2.2 t this

/-- C2 witness: a console stream record, an exec `running` async record and
    a result record for a token that is no longer outstanding leave the
    table `[1001]` alone and settle nothing. -/
theorem handleMIRecord_preserves_pending_witness :
    (runRecords ⟨[1001], false⟩
        [⟨.console, none, none, none, some (chars "hi")⟩,
         ⟨.exec, none, some (chars "running"), some [], none⟩,
         ⟨.result, some 4, some (chars "done"), some [], none⟩]).1.pendingCommands
      = [1001]
    ∧ (∀ e ∈ (runRecords ⟨[1001], false⟩
        [⟨.console, none, none, none, some (chars "hi")⟩,
         ⟨.exec, none, some (chars "running"), some [], none⟩,
         ⟨.result, some 4, some (chars "done"), some [], none⟩]).2,
        (∀ t record, e ≠ DebugEvent.commandResolved t record)
        ∧ (∀ t m, e ≠ DebugEvent.commandRejected t m))
    ∧ ∀ t, t ∈ [1001] → t ∈ (runRecords ⟨[1001], false⟩
        [⟨.console, none, none, none, some (chars "hi")⟩,
         ⟨.exec, none, some (chars "running"), some [], none⟩,
         ⟨.result, some 4, some (chars "done"), some [], none⟩]).1.pendingCommands :=
  handleMIRecord_preserves_pending ⟨[1001], false⟩
    [⟨.console, none, none, none, some (chars "hi")⟩,
     ⟨.exec, none, some (chars "running"), some [], none⟩,
     ⟨.result, some 4, some (chars "done"), some [], none⟩]
    (by
      intro r hr
      simp only [List.mem_cons, List.not_mem_nil, or_false] at hr
      rcases hr with h | h | h
      · subst h; exact Or.inl (by decide)
      · subst h; exact Or.inl (by decide)
      · subst h
        refine Or.inr (Or.inr ?_)
        intro t ht
        injection ht with h4
        subst h4
        decide)

/-! ## C1 — retirement of pending commands -/

/-- C1 counterexample: a matching result record of class `connected` (a
    class the result grammar allows, produced e.g. by `-target-select`; the
    `MIResultClass` type also lists `exit`, the reply to `-gdb-exit`) retires
    the pending command by resolving it successfully — a fourth outcome
    beside the claimed `done`/`running` success, `error` rejection and
    timeout. -/
theorem handleMIRecord_connected_resolves :
    (handleMIRecord ⟨[1005], false⟩
        ⟨.result, some 1005, some (chars "connected"), some [], none⟩).1.pendingCommands
      = []
    ∧ (handleMIRecord ⟨[1005], false⟩
        ⟨.result, some 1005, some (chars "connected"), some [], none⟩).2
      = [DebugEvent.commandResolved 1005
          ⟨.result, some 1005, some (chars "connected"), some [], none⟩]
    ∧ some (chars "connected") ≠ some (chars "done")
    ∧ some (chars "connected") ≠ some (chars "running")
    ∧ some (chars "connected") ≠ some (chars "error") :=
  ⟨rfl, rfl, by decide, by decide, by decide⟩

/-- C1 (amended): a result record whose token matches an outstanding pending
    command always retires it, exactly once: a class of `done` or `running`
    — or any class other than `error` (e.g. `connected`, `exit`) — resolves
    it successfully with the record; class `error` rejects it with the
    record's non-empty `msg` string or the generic message; and the fixed
    5-second timeout rejects a still-pending command with a timeout failure
    and does nothing once the command was already retired. -/
theorem handleMIRecord_result_retires (st : AdapterState) (record : MIRecord)
    (t : Nat) (command : List Char)
    (htype : record.type = .result) (htok : record.token = some t)
    (hmem : t ∈ st.pendingCommands) :
    (handleMIRecord st record).1.pendingCommands = removeToken t st.pendingCommands
    ∧ t ∉ (handleMIRecord st record).1.pendingCommands
    ∧ (record.cls = some (chars "error") →
        (handleMIRecord st record).2
          = [DebugEvent.commandRejected t (errorMessage record)])
    ∧ (record.cls ≠ some (chars "error") →
        (handleMIRecord st record).2 = [DebugEvent.commandResolved t record])
    ∧ handleMIRecord (handleMIRecord st record).1 record
        = ((handleMIRecord st record).1, [])
    ∧ timeoutFire (handleMIRecord st record).1 t command
        = ((handleMIRecord st record).1, none)
    ∧ (timeoutFire st t command).2
        = some (DebugEvent.commandRejected t (chars "Command timeout: " ++ command))
    ∧ gdbCommandTimeoutMs = 5000 := by
  obtain ⟨type, token, cls, results, output⟩ := record
  simp only [MIRecord.type] at htype
  simp only [MIRecord.token] at htok
  subst htype
  subst htok
  have hout : handleMIRecord st ⟨.result, some t, cls, results, output⟩
      = (⟨removeToken t st.pendingCommands, st.isRunning⟩,
         if cls = some (chars "done") ∨ cls = some (chars "running") then
           [DebugEvent.commandResolved t ⟨.result, some t, cls, results, output⟩]
         else if cls = some (chars "error") then
           [DebugEvent.commandRejected t
             (errorMessage ⟨.result, some t, cls, results, output⟩)]
         else
           [DebugEvent.commandResolved t ⟨.result, some t, cls, results, output⟩]) := by
    simp only [handleMIRecord, if_pos hmem]
    split
    · rfl
    · split <;> rfl
  have hnot : t ∉ removeToken t st.pendingCommands := not_mem_removeToken t _
  refine ⟨by rw [hout], by rw [hout]; exact hnot, ?_, ?_, ?_, ?_, ?_, rfl⟩
  · intro herr
    have herr' : cls = some (chars "error") := herr
    rw [hout]
    have hne : ¬(cls = some (chars "done") ∨ cls = some (chars "running")) := by
      rw [herr']
      decide
    simp only [if_neg hne, if_pos herr']
  · intro herr
    have herr' : cls ≠ some (chars "error") := herr
    rw [hout]
    by_cases hd : cls = some (chars "done") ∨ cls = some (chars "running")
    · simp only [if_pos hd]
    · simp only [if_neg hd, if_neg herr']
  · rw [hout]
    simp only [handleMIRecord, if_neg hnot]
  · rw [hout]
    simp only [timeoutFire, if_neg hnot]
  · simp only [timeoutFire, if_pos hmem]

/-- C1 witness: token 7 pending, `7^done` retires it as a success, and the
    timeout machinery behaves as stated. -/
theorem handleMIRecord_result_retires_witness :
    (handleMIRecord ⟨[7], true⟩
        ⟨.result, some 7, some (chars "done"), some [], none⟩).1.pendingCommands
      = removeToken 7 [7]
    ∧ 7 ∉ (handleMIRecord ⟨[7], true⟩
        ⟨.result, some 7, some (chars "done"), some [], none⟩).1.pendingCommands
    ∧ (some (chars "done") = some (chars "error") →
        (handleMIRecord ⟨[7], true⟩
          ⟨.result, some 7, some (chars "done"), some [], none⟩).2
          = [DebugEvent.commandRejected 7
              (errorMessage ⟨.result, some 7, some (chars "done"), some [], none⟩)])
    ∧ (some (chars "done") ≠ some (chars "error") →
        (handleMIRecord ⟨[7], true⟩
          ⟨.result, some 7, some (chars "done"), some [], none⟩).2
          = [DebugEvent.commandResolved 7
              ⟨.result, some 7, some (chars "done"), some [], none⟩])
    ∧ handleMIRecord (handleMIRecord ⟨[7], true⟩
          ⟨.result, some 7, some (chars "done"), some [], none⟩).1
        ⟨.result, some 7, some (chars "done"), some [], none⟩
        = ((handleMIRecord ⟨[7], true⟩
            ⟨.result, some 7, some (chars "done"), some [], none⟩).1, [])
    ∧ timeoutFire (handleMIRecord ⟨[7], true⟩
          ⟨.result, some 7, some (chars "done"), some [], none⟩).1 7 (chars "exec-run")
        = ((handleMIRecord ⟨[7], true⟩
            ⟨.result, some 7, some (chars "done"), some [], none⟩).1, none)
    ∧ (timeoutFire ⟨[7], true⟩ 7 (chars "exec-run")).2
        = some (DebugEvent.commandRejected 7
            (chars "Command timeout: " ++ chars "exec-run"))
    ∧ gdbCommandTimeoutMs = 5000 :=
  handleMIRecord_result_retires ⟨[7], true⟩
    ⟨.result, some 7, some (chars "done"), some [], none⟩ 7 (chars "exec-run")
    rfl rfl (by decide)

/-! ## C8 — the bounded reconnection policy -/

/-- After a transport close with the attempt counter exhausted, the counter
    is left untouched, so repeated closes never schedule another attempt. -/
theorem runDisconnects_no_schedule (details : SSHConnectionDetails) (n : Nat) :
    ∀ st : SSHManagerState,
      maxReconnectAttempts ≤
        (mapGet st.reconnectAttempts (getSessionKey details)).getD 0 →
      ∀ e ∈ (runDisconnects details n st).2, ∀ k d, e ≠ .scheduleReconnect k d := by
  induction n with
  | zero =>
    intro st _ e he
    simp [runDisconnects] at he
  | succ m ih =>
    intro st h e he
    simp only [runDisconnects] at he
    rcases hs : mapGet st.sessions (getSessionKey details) with _ | s
    · rw [show handleDisconnect st details = (st, []) from by
        simp only [handleDisconnect, hs]] at he
      simp only [List.nil_append] at he
      exact ih st h e he
    · have hlt : ¬((mapGet st.reconnectAttempts (getSessionKey details)).getD 0
          < maxReconnectAttempts) := not_lt.mpr h
      rw [show handleDisconnect st details
          = (⟨mapSet (getSessionKey details) .disconnected st.sessions,
              st.reconnectAttempts⟩,
             [.disconnected details.host, .reconnectFailed details.host]) from by
        simp only [handleDisconnect, hs, if_neg hlt]] at he
      simp only [List.mem_append, List.mem_cons, List.not_mem_nil, or_false] at he
      rcases he with (h1 | h1) | h1
      · subst h1; intro k d; simp
      · subst h1; intro k d; simp
      · exact ih ⟨mapSet (getSessionKey details) .disconnected st.sessions,
          st.reconnectAttempts⟩ h e h1

/-- C8: on a transport close of an established session, if fewer than
    3 reconnection attempts have been made, exactly one attempt is scheduled
    after the fixed 2-second delay and the counter is incremented; once 3
    attempts have been made, the close emits the terminal `reconnectFailed`
    and no later close for that session ever schedules another attempt. -/
theorem handleDisconnect_policy (st : SSHManagerState)
    (details : SSHConnectionDetails)
    (hsess : mapGet st.sessions (getSessionKey details) ≠ none) :
    ((mapGet st.reconnectAttempts (getSessionKey details)).getD 0
        < maxReconnectAttempts →
      (handleDisconnect st details).2
        = [.disconnected details.host,
           .scheduleReconnect (getSessionKey details) reconnectDelay]
      ∧ mapGet (handleDisconnect st details).1.reconnectAttempts
          (getSessionKey details)
        = some ((mapGet st.reconnectAttempts (getSessionKey details)).getD 0 + 1))
    ∧ (maxReconnectAttempts ≤
        (mapGet st.reconnectAttempts (getSessionKey details)).getD 0 →
      (handleDisconnect st details).2
        = [.disconnected details.host, .reconnectFailed details.host]
      ∧ ∀ n, ∀ e ∈ (runDisconnects details n (handleDisconnect st details).1).2,
          ∀ k d, e ≠ .scheduleReconnect k d)
    ∧ reconnectDelay = 2000 ∧ maxReconnectAttempts = 3 := by
  obtain ⟨s, hs⟩ := Option.ne_none_iff_exists'.mp hsess
  refine ⟨fun hlt => ?_, fun hge => ?_, rfl, rfl⟩
  · rw [show handleDisconnect st details
        = (⟨mapSet (getSessionKey details) .reconnecting
              (mapSet (getSessionKey details) .disconnected st.sessions),
            mapSet (getSessionKey details)
              ((mapGet st.reconnectAttempts (getSessionKey details)).getD 0 + 1)
              st.reconnectAttempts⟩,
           [.disconnected details.host,
            .scheduleReconnect (getSessionKey details) reconnectDelay]) from by
      simp only [handleDisconnect, hs, if_pos hlt]]
    exact ⟨rfl, mapGet_mapSet_self _ _ _⟩
  · have hlt : ¬((mapGet st.reconnectAttempts (getSessionKey details)).getD 0
        < maxReconnectAttempts) := not_lt.mpr hge
    rw [show handleDisconnect st details
        = (⟨mapSet (getSessionKey details) .disconnected st.sessions,
            st.reconnectAttempts⟩,
           [.disconnected details.host, .reconnectFailed details.host]) from by
      simp only [handleDisconnect, hs, if_neg hlt]]
    exact ⟨rfl, fun n => runDisconnects_no_schedule details n _ hge⟩

/-- C8 witness: a connected session with 3 recorded attempts reports
    terminal failure; the same session with 0 attempts schedules one
    2-second-delayed attempt.  (The theorem is applied at the exhausted
    state; its first implication is vacuous there.) -/
theorem handleDisconnect_policy_witness :
    ((mapGet [(getSessionKey ⟨chars "h", chars "hn", 22, chars "u"⟩, (3 : Nat))]
        (getSessionKey ⟨chars "h", chars "hn", 22, chars "u"⟩)).getD 0
          < maxReconnectAttempts →
      (handleDisconnect
          ⟨[(getSessionKey ⟨chars "h", chars "hn", 22, chars "u"⟩, .connected)],
            [(getSessionKey ⟨chars "h", chars "hn", 22, chars "u"⟩, 3)]⟩
          ⟨chars "h", chars "hn", 22, chars "u"⟩).2
        = [.disconnected (chars "h"),
           .scheduleReconnect (getSessionKey ⟨chars "h", chars "hn", 22, chars "u"⟩)
             reconnectDelay]
      ∧ mapGet (handleDisconnect
            ⟨[(getSessionKey ⟨chars "h", chars "hn", 22, chars "u"⟩, .connected)],
              [(getSessionKey ⟨chars "h", chars "hn", 22, chars "u"⟩, 3)]⟩
            ⟨chars "h", chars "hn", 22, chars "u"⟩).1.reconnectAttempts
          (getSessionKey ⟨chars "h", chars "hn", 22, chars "u"⟩)
        = some ((mapGet [(getSessionKey ⟨chars "h", chars "hn", 22, chars "u"⟩, (3 : Nat))]
            (getSessionKey ⟨chars "h", chars "hn", 22, chars "u"⟩)).getD 0 + 1))
    ∧ (maxReconnectAttempts ≤
        (mapGet [(getSessionKey ⟨chars "h", chars "hn", 22, chars "u"⟩, (3 : Nat))]
          (getSessionKey ⟨chars "h", chars "hn", 22, chars "u"⟩)).getD 0 →
      (handleDisconnect
          ⟨[(getSessionKey ⟨chars "h", chars "hn", 22, chars "u"⟩, .connected)],
            [(getSessionKey ⟨chars "h", chars "hn", 22, chars "u"⟩, 3)]⟩
          ⟨chars "h", chars "hn", 22, chars "u"⟩).2
        = [.disconnected (chars "h"), .reconnectFailed (chars "h")]
      ∧ ∀ n, ∀ e ∈ (runDisconnects ⟨chars "h", chars "hn", 22, chars "u"⟩ n
            (handleDisconnect
              ⟨[(getSessionKey ⟨chars "h", chars "hn", 22, chars "u"⟩, .connected)],
                [(getSessionKey ⟨chars "h", chars "hn", 22, chars "u"⟩, 3)]⟩
              ⟨chars "h", chars "hn", 22, chars "u"⟩).1).2,
          ∀ k d, e ≠ .scheduleReconnect k d)
    ∧ reconnectDelay = 2000 ∧ maxReconnectAttempts = 3 :=
  handleDisconnect_policy
    ⟨[(getSessionKey ⟨chars "h", chars "hn", 22, chars "u"⟩, .connected)],
      [(getSessionKey ⟨chars "h", chars "hn", 22, chars "u"⟩, 3)]⟩
    ⟨chars "h", chars "hn", 22, chars "u"⟩ (by decide)

/-! ## C9 — path mapping is first-match, not longest-prefix -/

theorem keyMatches_false_elim {key n : List Char} (h : keyMatches key n = false) :
    n ≠ key ∧ (key ++ ['/']).isPrefixOf n = false := by
  simp only [keyMatches, Bool.or_eq_false_iff, decide_eq_false_iff_not] at h
  exact h

theorem toRemotePathAux_no_match (entries : List (List Char × List Char))
    (n : List Char) (h : ∀ e ∈ entries, keyMatches e.1 n = false) :
    toRemotePathAux entries n = none := by
  induction entries with
  | nil => rfl
  | cons e rest ih =>
    obtain ⟨src, dst⟩ := e
    obtain ⟨h1, h2⟩ := keyMatches_false_elim (h (src, dst) (List.mem_cons_self _ _))
    simp only [toRemotePathAux, if_neg h1, h2, Bool.false_eq_true, if_false]
    exact ih (fun e he => h e (List.mem_cons_of_mem _ he))

theorem toRemotePathAux_first_match (pre : List (List Char × List Char))
    (src dst : List Char) (post : List (List Char × List Char)) (n : List Char)
    (hpre : ∀ e ∈ pre, keyMatches e.1 n = false)
    (hm : keyMatches src n = true) :
    toRemotePathAux (pre ++ (src, dst) :: post) n
      = some (if n = src then dst else dst ++ '/' :: n.drop (src.length + 1)) := by
  induction pre with
  | nil =>
    by_cases hn : n = src
    · simp only [List.nil_append, toRemotePathAux, if_pos hn, if_pos hn]
    · have hp : (src ++ ['/']).isPrefixOf n = true := by
        simp only [keyMatches, Bool.or_eq_true, decide_eq_true_eq] at hm
        tauto
      simp only [List.nil_append, toRemotePathAux, if_neg hn, hp, if_true]
  | cons e rest ih =>
    obtain ⟨src', dst'⟩ := e
    obtain ⟨h1, h2⟩ := keyMatches_false_elim (hpre (src', dst') (List.mem_cons_self _ _))
    simp only [List.cons_append, toRemotePathAux, if_neg h1, h2,
      Bool.false_eq_true, if_false]
    exact ih (fun e he => hpre e (List.mem_cons_of_mem _ he))

theorem toLocalPathAux_no_match (entries : List (List Char × List Char))
    (n : List Char) (h : ∀ e ∈ entries, keyMatches e.1 n = false) :
    toLocalPathAux entries n = none := by
  induction entries with
  | nil => rfl
  | cons e rest ih =>
    obtain ⟨src, dst⟩ := e
    obtain ⟨h1, h2⟩ := keyMatches_false_elim (h (src, dst) (List.mem_cons_self _ _))
    simp only [toLocalPathAux, if_neg h1, h2, Bool.false_eq_true, if_false]
    exact ih (fun e he => h e (List.mem_cons_of_mem _ he))

theorem toLocalPathAux_first_match (pre : List (List Char × List Char))
    (src dst : List Char) (post : List (List Char × List Char)) (n : List Char)
    (hpre : ∀ e ∈ pre, keyMatches e.1 n = false)
    (hm : keyMatches src n = true) :
    toLocalPathAux (pre ++ (src, dst) :: post) n
      = some (if n = src then dst
              else posixJoin dst (n.drop (src.length + 1))) := by
  induction pre with
  | nil =>
    by_cases hn : n = src
    · simp only [List.nil_append, toLocalPathAux, if_pos hn, if_pos hn]
    · have hp : (src ++ ['/']).isPrefixOf n = true := by
        simp only [keyMatches, Bool.or_eq_true, decide_eq_true_eq] at hm
        tauto
      simp only [List.nil_append, toLocalPathAux, if_neg hn, hp, if_true]
  | cons e rest ih =>
    obtain ⟨src', dst'⟩ := e
    obtain ⟨h1, h2⟩ := keyMatches_false_elim (hpre (src', dst') (List.mem_cons_self _ _))
    simp only [List.cons_append, toLocalPathAux, if_neg h1, h2,
      Bool.false_eq_true, if_false]
    exact ih (fun e he => hpre e (List.mem_cons_of_mem _ he))

/-- C9 counterexample: with the mapping table `/a → /x` (inserted first) and
    `/a/b → /y`, the input `/a/b/c` matches the *longer* mapped prefix
    `/a/b`, yet `toRemotePath` substitutes the *first* entry `/a`, returning
    `/x/b/c` instead of the longest-prefix result `/y/c`. -/
theorem toRemotePath_not_longest :
    PathMapper.toRemotePath
        (addMapping (addMapping .empty (chars "/a") (chars "/x"))
          (chars "/a/b") (chars "/y"))
        (chars "/a/b/c")
      = chars "/x/b/c"
    ∧ keyMatches (chars "/a/b") (normalizePath (chars "/a/b/c")) = true
    ∧ keyMatches (chars "/a") (normalizePath (chars "/a/b/c")) = true
    ∧ (chars "/a").length < (chars "/a/b").length
    ∧ chars "/x/b/c"
        ≠ chars "/y" ++ '/' :: (normalizePath (chars "/a/b/c")).drop
            ((chars "/a/b").length + 1) := by
  refine ⟨rfl, by decide, by decide, by decide, by decide⟩

/-- C9 (amended): `toRemotePath` and `toLocalPath` are pure lookups over the
    configured table on normalized paths, selecting the *first* entry in
    table (insertion) order whose key equals the path or is a `/`-separated
    prefix of it — not the longest such key — substituting that key with its
    counterpart; a path matching no entry is returned unchanged. -/
theorem pathMapper_first_match (m : PathMapper) (p : List Char) :
    ((∀ e ∈ m.localToRemote, keyMatches e.1 (normalizePath p) = false) →
      m.toRemotePath p = p)
    ∧ (∀ pre src dst post,
        m.localToRemote = pre ++ (src, dst) :: post →
        (∀ e ∈ pre, keyMatches e.1 (normalizePath p) = false) →
        keyMatches src (normalizePath p) = true →
        m.toRemotePath p
          = if normalizePath p = src then dst
            else dst ++ '/' :: (normalizePath p).drop (src.length + 1))
    ∧ ((∀ e ∈ m.remoteToLocal, keyMatches e.1 (normalizePath p) = false) →
      m.toLocalPath p = p)
    ∧ (∀ pre src dst post,
        m.remoteToLocal = pre ++ (src, dst) :: post →
        (∀ e ∈ pre, keyMatches e.1 (normalizePath p) = false) →
        keyMatches src (normalizePath p) = true →
        m.toLocalPath p
          = if normalizePath p = src then dst
            else posixJoin dst ((normalizePath p).drop (src.length + 1))) := by
  refine ⟨fun h => ?_, fun pre src dst post he hpre hm => ?_,
    fun h => ?_, fun pre src dst post he hpre hm => ?_⟩
  · simp only [PathMapper.toRemotePath, toRemotePathAux_no_match _ _ h, Option.getD]
  · simp only [PathMapper.toRemotePath, he,
      toRemotePathAux_first_match pre src dst post _ hpre hm, Option.getD]
  · simp only [PathMapper.toLocalPath, toLocalPathAux_no_match _ _ h, Option.getD]
  · simp only [PathMapper.toLocalPath, he,
      toLocalPathAux_first_match pre src dst post _ hpre hm, Option.getD]

/-- C9 witness: `/data/f.c` maps through `/data → /mnt`; `/other/f.c`
    matches nothing and passes through; `/mnt/sub/f.c` maps back through
    the reverse table using the path join. -/
theorem pathMapper_first_match_witness :
    PathMapper.toRemotePath (addMapping .empty (chars "/data") (chars "/mnt"))
        (chars "/data/f.c")
      = (if normalizePath (chars "/data/f.c") = chars "/data" then chars "/mnt"
         else chars "/mnt" ++ '/' :: (normalizePath (chars "/data/f.c")).drop
           ((chars "/data").length + 1))
    ∧ PathMapper.toRemotePath (addMapping .empty (chars "/data") (chars "/mnt"))
        (chars "/other/f.c")
      = chars "/other/f.c"
    ∧ PathMapper.toLocalPath (addMapping .empty (chars "/data") (chars "/mnt"))
        (chars "/mnt/sub/f.c")
      = (if normalizePath (chars "/mnt/sub/f.c") = chars "/mnt" then chars "/data"
         else posixJoin (chars "/data") ((normalizePath (chars "/mnt/sub/f.c")).drop
           ((chars "/mnt").length + 1))) :=
  ⟨(pathMapper_first_match (addMapping .empty (chars "/data") (chars "/mnt"))
      (chars "/data/f.c")).2.1 [] (chars "/data") (chars "/mnt") [] rfl
      (by intro e he; simp at he) (by decide),
   (pathMapper_first_match (addMapping .empty (chars "/data") (chars "/mnt"))
      (chars "/other/f.c")).1
      (by intro e he; simp [addMapping, PathMapper.empty, mapSet] at he;
          rw [he]; decide),
   (pathMapper_first_match (addMapping .empty (chars "/data") (chars "/mnt"))
      (chars "/mnt/sub/f.c")).2.2.2 [] (chars "/mnt") (chars "/data") [] rfl
      (by intro e he; simp at he) (by decide)⟩

/-! ## C5 — unescape ∘ escape -/

theorem replaceEsc_other (p r : Char) {a : Char} (l : List Char) (h : a ≠ '\\') :
    replaceEsc p r (a :: l) = a :: replaceEsc p r l := by
  cases l with
  | nil => rfl
  | cons b rest => simp [replaceEsc, h]

theorem replaceEsc_bs_nil (p r : Char) : replaceEsc p r ['\\'] = ['\\'] := rfl

theorem replaceEsc_hit (p r : Char) (l : List Char) :
    replaceEsc p r ('\\' :: p :: l) = r :: replaceEsc p r l := by
  simp [replaceEsc]

theorem replaceEsc_miss (p r : Char) {c : Char} (l : List Char) (h : c ≠ p) :
    replaceEsc p r ('\\' :: c :: l) = '\\' :: replaceEsc p r (c :: l) := by
  simp [replaceEsc, h]

theorem goodStr_tail {a : Char} {s : List Char} (h : goodStr (a :: s) = true) :
    goodStr s = true := by
  cases s with
  | nil => rfl
  | cons b rest =>
    simp only [goodStr, Bool.and_eq_true] at h
    exact h.2

theorem goodStr_head {b : Char} {s : List Char}
    (h : goodStr ('\\' :: b :: s) = true) :
    b ≠ 'n' ∧ b ≠ 'r' ∧ b ≠ 't' ∧ b ≠ '"' := by
  refine ⟨?_, ?_, ?_, ?_⟩ <;> intro hb <;> subst hb <;> simp [goodStr] at h

/-- One global-replace pass over an escaped string removes exactly its own
    escape, provided no backslash of the original is followed by a literal
    pattern letter. -/
theorem replaceEsc_stage (p r : Char) (E E' : Char → List Char)
    (hp : p = 'n' ∨ p = 'r' ∨ p = 't' ∨ p = '"')
    (hEr : E r = ['\\', p]) (hEr' : E' r = [r])
    (hEbs : E '\\' = ['\\', '\\']) (hEbs' : E' '\\' = ['\\', '\\'])
    (hoth : ∀ c, c ≠ r → c ≠ '\\' →
      E' c = E c ∧ (E c = [c] ∨ ∃ q, q ≠ p ∧ q ≠ '\\' ∧ E c = ['\\', q])) :
    ∀ s, goodStr s = true → replaceEsc p r (flatE E s) = flatE E' s := by
  have hpbs : p ≠ '\\' := by
    rcases hp with h | h | h | h <;> subst h <;> decide
  intro s
  induction s with
  | nil => intro _; rfl
  | cons c s' ih =>
    intro hgood
    have hg' : goodStr s' = true := goodStr_tail hgood
    have hmain : replaceEsc p r (E c ++ flatE E s') = E' c ++ flatE E' s' := by
      by_cases hcr : c = r
      · rw [hcr, hEr, hEr']
        simp only [List.cons_append, List.nil_append]
        rw [replaceEsc_hit, ih hg']
      · by_cases hcb : c = '\\'
        · subst hcb
          rw [hEbs, hEbs']
          simp only [List.cons_append, List.nil_append]
          rw [replaceEsc_miss p r _ (fun hh => hpbs hh.symm)]
          congr 1
          cases s' with
          | nil =>
            rw [show flatE E ([] : List Char) = [] from rfl,
              show flatE E' ([] : List Char) = [] from rfl, replaceEsc_bs_nil]
          | cons d s'' =>
            have hd : ∃ x l, E d = x :: l ∧ x ≠ p := by
              by_cases hdr : d = r
              · subst hdr
                exact ⟨'\\', [p], hEr, fun hh => hpbs hh.symm⟩
              · by_cases hdb : d = '\\'
                · subst hdb
                  exact ⟨'\\', ['\\'], hEbs, fun hh => hpbs hh.symm⟩
                · rcases (hoth d hdr hdb).2 with h1 | ⟨q, hq1, hq2, h1⟩
                  · refine ⟨d, [], h1, ?_⟩
                    have hd4 := goodStr_head hgood
                    rcases hp with h | h | h | h <;> subst h <;> tauto
                  · exact ⟨'\\', [q], h1, fun hh => hpbs hh.symm⟩
            obtain ⟨x, l, hE, hxp⟩ := hd
            rw [show flatE E (d :: s'') = E d ++ flatE E s'' from rfl, hE,
              List.cons_append, replaceEsc_miss p r _ hxp, ← List.cons_append,
              ← hE, show E d ++ flatE E s'' = flatE E (d :: s'') from rfl,
              ih hg']
        · obtain ⟨hE'c, hshape⟩ := hoth c hcr hcb
          rw [hE'c]
          rcases hshape with h1 | ⟨q, hq1, hq2, h1⟩
          · rw [h1, List.singleton_append, List.singleton_append,
              replaceEsc_other p r _ hcb, ih hg']
          · rw [h1]
            simp only [List.cons_append, List.nil_append]
            rw [replaceEsc_miss p r _ hq1, replaceEsc_other p r _ hq2, ih hg']
    rw [show flatE E (c :: s') = E c ++ flatE E s' from rfl,
      show flatE E' (c :: s') = E' c ++ flatE E' s' from rfl]
    exact hmain

/-- The final pass (`\\`) inverts the last remaining escape exactly. -/
theorem replaceEsc_bs_final : ∀ s : List Char,
    replaceEsc '\\' '\\' (flatE escStage4 s) = s := by
  intro s
  induction s with
  | nil => rfl
  | cons c s' ih =>
    by_cases hc : c = '\\'
    · subst hc
      show replaceEsc '\\' '\\' (escStage4 '\\' ++ flatE escStage4 s') = _
      rw [show escStage4 '\\' = ['\\', '\\'] from by decide]
      simp only [List.cons_append, List.nil_append]
      rw [replaceEsc_hit, ih]
    · have h4 : escStage4 c = [c] := by
        by_cases h1 : c = '"'
        · subst h1; decide
        · by_cases h2 : c = '\t'
          · subst h2; decide
          · by_cases h3 : c = '\r'
            · subst h3; decide
            · by_cases h5 : c = '\n'
              · subst h5; decide
              · simp [escStage4, escStage3, escStage2, escStage1, escapeChar,
                  h1, h2, h3, h5, hc]
      show replaceEsc '\\' '\\' (escStage4 c ++ flatE escStage4 s') = _
      rw [h4, List.singleton_append, replaceEsc_other _ _ _ hc, ih]

theorem unescape_pass1 (s : List Char) (h : goodStr s = true) :
    replaceEsc 'n' '\n' (flatE escapeChar s) = flatE escStage1 s := by
  refine replaceEsc_stage 'n' '\n' escapeChar escStage1 (Or.inl rfl)
    (by decide) (by decide) (by decide) (by decide) ?_ s h
  intro c h1 h2
  refine ⟨by simp [escStage1, h1], ?_⟩
  by_cases hr : c = '\r'
  · subst hr; exact Or.inr ⟨'r', by decide, by decide, by decide⟩
  · by_cases ht : c = '\t'
    · subst ht; exact Or.inr ⟨'t', by decide, by decide, by decide⟩
    · by_cases hq : c = '"'
      · subst hq; exact Or.inr ⟨'"', by decide, by decide, by decide⟩
      · exact Or.inl (by simp [escapeChar, h1, h2, hr, ht, hq])

theorem unescape_pass2 (s : List Char) (h : goodStr s = true) :
    replaceEsc 'r' '\r' (flatE escStage1 s) = flatE escStage2 s := by
  refine replaceEsc_stage 'r' '\r' escStage1 escStage2 (Or.inr (Or.inl rfl))
    (by decide) (by decide) (by decide) (by decide) ?_ s h
  intro c h1 h2
  refine ⟨by simp [escStage2, h1], ?_⟩
  by_cases hn : c = '\n'
  · subst hn; exact Or.inl (by decide)
  · by_cases ht : c = '\t'
    · subst ht; exact Or.inr ⟨'t', by decide, by decide, by decide⟩
    · by_cases hq : c = '"'
      · subst hq; exact Or.inr ⟨'"', by decide, by decide, by decide⟩
      · exact Or.inl (by simp [escStage1, escapeChar, h1, h2, hn, ht, hq])

theorem unescape_pass3 (s : List Char) (h : goodStr s = true) :
    replaceEsc 't' '\t' (flatE escStage2 s) = flatE escStage3 s := by
  refine replaceEsc_stage 't' '\t' escStage2 escStage3 (Or.inr (Or.inr (Or.inl rfl)))
    (by decide) (by decide) (by decide) (by decide) ?_ s h
  intro c h1 h2
  refine ⟨by simp [escStage3, h1], ?_⟩
  by_cases hn : c = '\n'
  · subst hn; exact Or.inl (by decide)
  · by_cases hr : c = '\r'
    · subst hr; exact Or.inl (by decide)
    · by_cases hq : c = '"'
      · subst hq; exact Or.inr ⟨'"', by decide, by decide, by decide⟩
      · exact Or.inl (by simp [escStage2, escStage1, escapeChar, h1, h2, hn, hr, hq])

theorem unescape_pass4 (s : List Char) (h : goodStr s = true) :
    replaceEsc '"' '"' (flatE escStage3 s) = flatE escStage4 s := by
  refine replaceEsc_stage '"' '"' escStage3 escStage4 (Or.inr (Or.inr (Or.inr rfl)))
    (by decide) (by decide) (by decide) (by decide) ?_ s h
  intro c h1 h2
  refine ⟨by simp [escStage4, h1], ?_⟩
  by_cases hn : c = '\n'
  · subst hn; exact Or.inl (by decide)
  · by_cases hr : c = '\r'
    · subst hr; exact Or.inl (by decide)
    · by_cases ht : c = '\t'
      · subst ht; exact Or.inl (by decide)
      · exact Or.inl (by simp [escStage3, escStage2, escStage1, escapeChar,
          h1, h2, hn, hr, ht])

/-- C5 counterexample: for the two-character string backslash-`n`, escaping
    gives backslash backslash `n`, and `unescapeString` — which replaces
    `\n` before `\\` — turns it into backslash-newline, not the original. -/
theorem unescape_escape_backslash_n :
    unescapeString (escape ['\\', 'n']) = ['\\', '\n']
    ∧ unescapeString (escape ['\\', 'n']) ≠ ['\\', 'n'] :=
  ⟨by decide, by decide⟩

/-- C5 (amended): `unescapeString ∘ escape` is the identity on every string
    in which no backslash is immediately followed by a literal `n`, `r`, `t`
    or `"` (on such strings the sequential replace order misfires: the
    backslash's own escape `\\` feeds the earlier `\n`/`\r`/`\t`/`\"`
    passes). -/
theorem unescape_escape_id (s : List Char) (h : goodStr s = true) :
    unescapeString (escape s) = s := by
  unfold unescapeString escape
  rw [unescape_pass1 s h, unescape_pass2 s h, unescape_pass3 s h,
    unescape_pass4 s h, replaceEsc_bs_final s]

/-- C5 witness: a string containing all five escapable characters. -/
theorem unescape_escape_id_witness :
    goodStr (chars "a\n\r\t\"\\") = true
    ∧ unescapeString (escape (chars "a\n\r\t\"\\")) = chars "a\n\r\t\"\\" :=
  ⟨by decide, unescape_escape_id _ (by decide)⟩

/-! ## C3 — the tuple-body loop does not terminate on a non-`name=value`
element -/

/-- Inside `{…}`, at an element that is not a `name=value` pair, the loop
    body neither advances the cursor nor stops: every amount of fuel is
    consumed.  (The list branch has the `i === prevIndex` guard; the tuple
    branch does not.) -/
theorem tupleLoop_stuck : ∀ (f : Nat) (acc : List MIResult),
    tupleLoop f (chars "x\x7d") acc = none := by
  intro f
  induction f with
  | zero => intro _; rfl
  | succ n ih =>
    intro acc
    rw [show tupleLoop (n + 1) (chars "x\x7d") acc = tupleLoop n (chars "x\x7d") acc
      from rfl]
    exact ih acc

/-- `parseValue` on the tuple `{x}` runs out of any amount of fuel: the
    original recursion never returns. -/
theorem parseValue_tuple_stuck : ∀ f : Nat, parseValue f (chars "\x7bx\x7d") = none := by
  intro f
  cases f with
  | zero => rfl
  | succ n =>
    rw [show parseValue (n + 1) (chars "\x7bx\x7d")
        = (tupleLoop n (chars "x\x7d") []).map (fun p => (.tuple p.1, p.2.drop 1))
      from rfl, tupleLoop_stuck n []]
    rfl

/-- C3: contrary to the claimed always-forward-progress property, the line
    `^done,a={x}` — whose tuple body holds the element `x`, not a
    `name=value` pair — makes the parser loop forever: for every fuel bound
    the embedded parse returns `none` (the fuel is exhausted), i.e. the
    source `while` loop in the tuple branch of `parseValue` never
    terminates. -/
theorem parseLine_tuple_diverges : ∀ f : Nat,
    parseLine f (chars "^done,a=\x7bx\x7d") = none := by
  intro f
  cases f with
  | zero => rfl
  | succ n =>
    have h1 : resultsLoop (n + 1) (chars "a=\x7bx\x7d") [] = none := by
      rw [show resultsLoop (n + 1) (chars "a=\x7bx\x7d") []
          = (match parseValue n (chars "\x7bx\x7d") with
             | none => none
             | some (v, rem) => resultsLoop n rem [(chars "a", v)])
        from rfl, parseValue_tuple_stuck n]
    rw [show parseLine (n + 1) (chars "^done,a=\x7bx\x7d")
        = ((resultsLoop (n + 1) (chars "a=\x7bx\x7d") []).map
            (fun rs => (⟨.result, none, some (chars "done"), some rs, none⟩ : MIRecord))).map
          some
      from rfl, h1]
    rfl

/-! ## C4 — normalization of list items -/

theorem isNameStart_props {c : Char} (h : isNameStart c = true) :
    c ≠ ']' ∧ c ≠ ' ' ∧ c ≠ ',' ∧ c ≠ '"' := by
  refine ⟨?_, ?_, ?_, ?_⟩ <;> intro hc <;> subst hc <;> simp [isNameStart] at h

theorem takeWhile_all_append {p : α → Bool} (l : List α) (c : α) (r : List α)
    (hl : l.all p = true) (hc : p c = false) :
    (l ++ c :: r).takeWhile p = l ∧ (l ++ c :: r).dropWhile p = c :: r := by
  induction l with
  | nil => simp [List.takeWhile_cons, List.dropWhile_cons, hc]
  | cons a l' ih =>
    simp only [List.all_cons, Bool.and_eq_true] at hl
    have := ih hl.2
    simp [List.takeWhile_cons, List.dropWhile_cons, hl.1, this.1, this.2]

theorem matchVarEq_append (nm r : List Char) (h : validName nm = true) :
    matchVarEq (nm ++ '=' :: r) = some (nm, r) := by
  cases nm with
  | nil => simp [validName] at h
  | cons c rest =>
    simp only [validName, Bool.and_eq_true] at h
    have heq : isNameChar '=' = false := by decide
    have := takeWhile_all_append rest '=' r h.2 heq
    simp only [List.cons_append, matchVarEq, h.1, if_true, this.1, this.2]

theorem replaceEsc_no_bs (p r : Char) (s : List Char) (h : '\\' ∉ s) :
    replaceEsc p r s = s := by
  induction s with
  | nil => rfl
  | cons a rest ih =>
    have ha : a ≠ '\\' := fun hh => h (hh ▸ List.mem_cons_self a rest)
    rw [replaceEsc_other p r rest ha, ih (fun hh => h (List.mem_cons_of_mem a hh))]

theorem unescapeString_no_bs (s : List Char) (h : '\\' ∉ s) :
    unescapeString s = s := by
  unfold unescapeString
  rw [replaceEsc_no_bs _ _ s h, replaceEsc_no_bs _ _ s h, replaceEsc_no_bs _ _ s h,
    replaceEsc_no_bs _ _ s h, replaceEsc_no_bs _ _ s h]

theorem plain_no_bs (val : List Char) (h : val.all plainChar = true) : '\\' ∉ val := by
  intro hmem
  have := (List.all_eq_true.mp h) '\\' hmem
  simp [plainChar] at this

theorem stringScan_plain (val : List Char) (r acc : List Char)
    (h : val.all plainChar = true) :
    stringScan (val ++ '"' :: r) acc false = (.str (unescapeString (acc ++ val)), r) := by
  induction val generalizing acc with
  | nil => simp [stringScan]
  | cons c val' ih =>
    simp only [List.all_cons, Bool.and_eq_true] at h
    have hc : c ≠ '\\' ∧ c ≠ '"' := by
      have := h.1
      simp only [plainChar, Bool.and_eq_true, decide_eq_true_eq] at this
      exact this
    simp only [List.cons_append, stringScan, hc.1, hc.2, ite_false]
    simp only [ite_self, List.append_eq]
    rw [ih _ h.2]
    simp [List.append_assoc]

theorem parseValue_quoted (f : Nat) (val r : List Char)
    (h : val.all plainChar = true) :
    parseValue (f + 1) ('"' :: (val ++ '"' :: r)) = some (.str val, r) := by
  rw [show parseValue (f + 1) ('"' :: (val ++ '"' :: r))
      = some (stringScan (val ++ '"' :: r) [] false) from rfl,
    stringScan_plain val r [] h]
  rw [List.nil_append, unescapeString_no_bs val (plain_no_bs val h)]

theorem listLoop_exit (f : Nat) (r : List Char) (acc : List MIValue) :
    listLoop (f + 1) (']' :: r) acc = some (acc, ']' :: r) := by
  simp only [listLoop]
  rw [if_pos (Or.inl (show ((']' :: r : List Char)).head? = some ']' from rfl))]

theorem listLoop_step_named (f : Nat) (s : List Char) (acc : List MIValue)
    (nm afterEq : List Char) (v : MIValue) (rem : List Char)
    (hne : ¬(s.head? = some ']' ∨ s = []))
    (ht : ¬(skipSpacesCommas s = [] ∨ (skipSpacesCommas s).head? = some ']'))
    (hmv : matchVarEq (skipSpacesCommas s) = some (nm, afterEq))
    (hpv : parseValue f afterEq = some (v, rem))
    (hrt : ¬(rem = skipSpacesCommas s)) :
    listLoop (f + 1) s acc = listLoop f rem (acc ++ [MIValue.tuple [(nm, v)]]) := by
  simp only [listLoop]
  rw [if_neg hne, if_neg ht, hmv]
  show (match parseValue f afterEq with
    | none => none
    | some (v, rem) =>
      if rem = skipSpacesCommas s then some (acc ++ [MIValue.tuple [(nm, v)]], rem)
      else listLoop f rem (acc ++ [MIValue.tuple [(nm, v)]]))
    = listLoop f rem (acc ++ [MIValue.tuple [(nm, v)]])
  rw [hpv]
  show (if rem = skipSpacesCommas s then some (acc ++ [MIValue.tuple [(nm, v)]], rem)
      else listLoop f rem (acc ++ [MIValue.tuple [(nm, v)]]))
    = listLoop f rem (acc ++ [MIValue.tuple [(nm, v)]])
  rw [if_neg hrt]

theorem listLoop_step_bare (f : Nat) (s : List Char) (acc : List MIValue)
    (v : MIValue) (rem : List Char)
    (hne : ¬(s.head? = some ']' ∨ s = []))
    (ht : ¬(skipSpacesCommas s = [] ∨ (skipSpacesCommas s).head? = some ']'))
    (hmv : matchVarEq (skipSpacesCommas s) = none)
    (hpv : parseValue f (skipSpacesCommas s) = some (v, rem))
    (hrt : ¬(rem = skipSpacesCommas s)) :
    listLoop (f + 1) s acc = listLoop f rem (acc ++ [v]) := by
  simp only [listLoop]
  rw [if_neg hne, if_neg ht, hmv]
  show (match parseValue f (skipSpacesCommas s) with
    | none => none
    | some (v, rem) =>
      if rem = skipSpacesCommas s then some (acc ++ [v], rem)
      else listLoop f rem (acc ++ [v]))
    = listLoop f rem (acc ++ [v])
  rw [hpv]
  show (if rem = skipSpacesCommas s then some (acc ++ [v], rem)
      else listLoop f rem (acc ++ [v]))
    = listLoop f rem (acc ++ [v])
  rw [if_neg hrt]

/-- Every quoted-string scan yields a `String`-shaped value. -/
theorem stringScan_is_str (l : List Char) : ∀ (acc : List Char) (e : Bool),
    ∃ s', (stringScan l acc e).1 = MIValue.str s' := by
  induction l with
  | nil => intro acc e; exact ⟨acc, rfl⟩
  | cons c rest ih =>
    intro acc e
    simp only [stringScan]
    split
    · exact ih _ _
    · split
      · exact ih _ _
      · split
        · exact ⟨unescapeString acc, rfl⟩
        · exact ih _ _

/-- Every successful run of the list-body loop appends items that satisfy
    the `ListItems` normalization relation. -/
theorem listLoop_items : ∀ (fuel : Nat) (s : List Char) (acc out : List MIValue)
    (rem : List Char), listLoop fuel s acc = some (out, rem) →
    ∃ items, out = acc ++ items ∧ ListItems s items := by
  intro fuel
  induction fuel with
  | zero => intro s acc out rem h; exact absurd h (by simp [listLoop])
  | succ f ih =>
    intro s acc out rem h
    simp only [listLoop] at h
    split at h
    · obtain ⟨h1, h2⟩ := Prod.mk.injEq .. ▸ (Option.some.injEq .. ▸ h)
      exact ⟨[], by simp [h1.symm], ListItems.nil s⟩
    · split at h
      · obtain ⟨h1, h2⟩ := Prod.mk.injEq .. ▸ (Option.some.injEq .. ▸ h)
        exact ⟨[], by simp [h1.symm], ListItems.nil s⟩
      · split at h
        · rename_i nm afterEq hm
          split at h
          · exact absurd h (by simp)
          · rename_i v rem0 hv
            split at h
            · obtain ⟨h1, h2⟩ := Prod.mk.injEq .. ▸ (Option.some.injEq .. ▸ h)
              refine ⟨[MIValue.tuple [(nm, v)]], by simp [h1.symm], ?_⟩
              exact ListItems.named s nm afterEq f v rem0 [] hm hv (ListItems.nil rem0)
            · obtain ⟨items, hout, hli⟩ := ih rem0 _ out rem h
              refine ⟨MIValue.tuple [(nm, v)] :: items, by simp [hout], ?_⟩
              exact ListItems.named s nm afterEq f v rem0 items hm hv hli
        · rename_i hm
          split at h
          · exact absurd h (by simp)
          · rename_i v rem0 hv
            split at h
            · obtain ⟨h1, h2⟩ := Prod.mk.injEq .. ▸ (Option.some.injEq .. ▸ h)
              refine ⟨[v], by simp [h1.symm], ?_⟩
              exact ListItems.bare s f v rem0 [] hm hv (ListItems.nil rem0)
            · obtain ⟨items, hout, hli⟩ := ih rem0 _ out rem h
              refine ⟨v :: items, by simp [hout], ?_⟩
              exact ListItems.bare s f v rem0 items hm hv hli

/-- A `List`-shaped value can only come out of the `[...]` branch of
    `parseValue` — i.e. out of a `listLoop` run (the other branches produce
    `String`s and `Tuple`s). -/
theorem parseValue_list_origin : ∀ (fuel : Nat) (s : List Char)
    (values : List MIValue) (rem : List Char),
    parseValue fuel s = some (MIValue.list values, rem) →
    ∃ f' s' rem', s = '[' :: s' ∧ listLoop f' s' [] = some (values, rem') := by
  intro fuel s values rem h
  cases fuel with
  | zero => exact absurd h (by simp [parseValue])
  | succ f =>
    simp only [parseValue] at h
    split at h
    · rename_i rest
      obtain ⟨s', hs'⟩ := stringScan_is_str rest [] false
      injection h with h'
      rw [h'] at hs'
      exact absurd hs' (by simp)
    · rename_i rest
      rcases htl : tupleLoop f rest [] with _ | p
      · rw [htl] at h
        simp at h
      · rw [htl] at h
        simp only [Option.map_some'] at h
        injection h with h'
        have := congrArg Prod.fst h'
        exact absurd this (by simp)
    · rename_i rest
      rcases hll : listLoop f rest [] with _ | p
      · rw [hll] at h
        simp at h
      · rw [hll] at h
        simp only [Option.map_some'] at h
        injection h with h'
        have h1 : MIValue.list p.1 = MIValue.list values := congrArg Prod.fst h'
        have h2 : p.1 = values := by
          injection h1
        refine ⟨f, rest, p.2, rfl, ?_⟩
        rw [hll, ← h2]
    · have hfb : (fallbackScan s).1
          = MIValue.str (jsTrim (s.takeWhile
              (fun c => c ≠ ',' ∧ c ≠ '\x7d' ∧ c ≠ ']'))) := rfl
      injection h with h'
      rw [h'] at hfb
      exact absurd hfb (by simp)

/-- C4: for every parsed `List` value anywhere in any accepted line — a
    `.list` is only ever built by the `[...]` branch, i.e. by a `listLoop`
    run (second conjunct) — the items satisfy the `ListItems` normalization
    relation (first conjunct, universal over every run of the loop): each
    `name=value` element contributes the single-field Tuple wrapping that
    pair, never a bare pair, and each bare element contributes its parsed
    value as-is; every item is one of the three `MIValue` shapes by
    construction of the closed union. -/
theorem listValue_normalization :
    (∀ (fuel : Nat) (s : List Char) (acc out : List MIValue) (rem : List Char),
      listLoop fuel s acc = some (out, rem) →
      ∃ items, out = acc ++ items ∧ ListItems s items)
    ∧ ∀ (fuel : Nat) (s : List Char) (values : List MIValue) (rem : List Char),
      parseValue fuel s = some (MIValue.list values, rem) →
      ∃ s', s = '[' :: s' ∧ ListItems s' values := by
  refine ⟨listLoop_items, ?_⟩
  intro fuel s values rem h
  obtain ⟨f', s', rem', hs, hll⟩ := parseValue_list_origin fuel s values rem h
  obtain ⟨items, hout, hli⟩ := listLoop_items f' s' [] values rem' hll
  rw [List.nil_append] at hout
  exact ⟨s', hs, hout ▸ hli⟩

/-- C4 witness: the two-element body `frame={addr="1"},"2"]` — a named
    element whose value is itself a tuple, followed by a bare quoted
    element — both as a raw `listLoop` run and as a full `parseValue` of
    the bracketed list. -/
theorem listValue_normalization_witness :
    (∃ items,
      [MIValue.tuple [(chars "frame",
          MIValue.tuple [(chars "addr", MIValue.str (chars "1"))])],
        MIValue.str (chars "2")] = [] ++ items
      ∧ ListItems (chars "frame=\x7baddr=\"1\"\x7d,\"2\"]") items)
    ∧ ∃ s', '[' :: chars "frame=\x7baddr=\"1\"\x7d,\"2\"]" = '[' :: s'
      ∧ ListItems s'
          [MIValue.tuple [(chars "frame",
              MIValue.tuple [(chars "addr", MIValue.str (chars "1"))])],
            MIValue.str (chars "2")] :=
  ⟨listValue_normalization.1 9 (chars "frame=\x7baddr=\"1\"\x7d,\"2\"]") []
      [MIValue.tuple [(chars "frame",
          MIValue.tuple [(chars "addr", MIValue.str (chars "1"))])],
        MIValue.str (chars "2")] [']'] rfl,
   listValue_normalization.2 10 ('[' :: chars "frame=\x7baddr=\"1\"\x7d,\"2\"]")
      [MIValue.tuple [(chars "frame",
          MIValue.tuple [(chars "addr", MIValue.str (chars "1"))])],
        MIValue.str (chars "2")] [] rfl⟩

/-! ## C7 — breakpoint reconciliation -/

theorem mapGet_mapDelete_self [BEq α] [LawfulBEq α] (k : α) (m : List (α × β)) :
    mapGet (mapDelete k m) k = none := by
  induction m with
  | nil => rfl
  | cons p rest ih =>
    obtain ⟨a, b⟩ := p
    by_cases ha : a = k
    · subst ha
      simpa [mapDelete, mapGet, List.filter] using ih
    · have hb : (a == k) = false := beq_eq_false_iff_ne.mpr ha
      simp only [mapDelete, List.filter_cons, hb, Bool.not_false, if_true]
      simpa [mapGet, List.find?_cons, hb, mapDelete] using ih

theorem mapGet_mapDelete_ne [BEq α] [LawfulBEq α] (k p : α) (m : List (α × β))
    (h : p ≠ k) : mapGet (mapDelete k m) p = mapGet m p := by
  induction m with
  | nil => rfl
  | cons q rest ih =>
    obtain ⟨a, b⟩ := q
    by_cases ha : a = k
    · subst ha
      have hb : (a == p) = false := beq_eq_false_iff_ne.mpr (fun e => h e.symm)
      simp only [mapDelete, List.filter_cons, beq_self_eq_true, Bool.not_true,
        if_false, Bool.false_eq_true]
      simpa [mapGet, List.find?_cons, hb, mapDelete] using ih
    · have hb : (a == k) = false := beq_eq_false_iff_ne.mpr ha
      by_cases hap : a = p
      · subst hap
        simp [mapDelete, List.filter_cons, hb, mapGet, List.find?_cons]
      · have hb' : (a == p) = false := beq_eq_false_iff_ne.mpr hap
        simp only [mapDelete, List.filter_cons, hb, Bool.not_false, if_true]
        simpa [mapGet, List.find?_cons, hb', mapDelete] using ih

theorem insertLoop_cons_ok_id {resp : List Char → Except (List Char) MIRecord}
    {path remotePath : List Char} {l : Nat} {rest : List Nat}
    {tbl : GdbBreakpoints} {bps : List BpResult} {cmds : List (List Char)}
    {record : MIRecord} {gdbId : Int}
    (h1 : resp (breakInsertCmd remotePath l) = .ok record)
    (h2 : getGdbBreakpointId record = some gdbId) :
    insertLoop resp path remotePath (l :: rest) tbl bps cmds
      = insertLoop resp path remotePath rest
          (rememberGdbBreakpoint path l gdbId tbl)
          (bps ++ [⟨true, l, some gdbId⟩])
          (cmds ++ [breakInsertCmd remotePath l]) := by
  simp only [insertLoop]
  rw [h1]
  show (match getGdbBreakpointId record with
    | some gdbId =>
      insertLoop resp path remotePath rest (rememberGdbBreakpoint path l gdbId tbl)
        (bps ++ [(⟨true, l, some gdbId⟩ : BpResult)])
        (cmds ++ [breakInsertCmd remotePath l])
    | none =>
      insertLoop resp path remotePath rest tbl
        (bps ++ [(⟨true, l, none⟩ : BpResult)])
        (cmds ++ [breakInsertCmd remotePath l]))
    = _
  rw [h2]

theorem insertLoop_cons_ok_noid {resp : List Char → Except (List Char) MIRecord}
    {path remotePath : List Char} {l : Nat} {rest : List Nat}
    {tbl : GdbBreakpoints} {bps : List BpResult} {cmds : List (List Char)}
    {record : MIRecord}
    (h1 : resp (breakInsertCmd remotePath l) = .ok record)
    (h2 : getGdbBreakpointId record = none) :
    insertLoop resp path remotePath (l :: rest) tbl bps cmds
      = insertLoop resp path remotePath rest tbl
          (bps ++ [⟨true, l, none⟩]) (cmds ++ [breakInsertCmd remotePath l]) := by
  simp only [insertLoop]
  rw [h1]
  show (match getGdbBreakpointId record with
    | some gdbId =>
      insertLoop resp path remotePath rest (rememberGdbBreakpoint path l gdbId tbl)
        (bps ++ [(⟨true, l, some gdbId⟩ : BpResult)])
        (cmds ++ [breakInsertCmd remotePath l])
    | none =>
      insertLoop resp path remotePath rest tbl
        (bps ++ [(⟨true, l, none⟩ : BpResult)])
        (cmds ++ [breakInsertCmd remotePath l]))
    = _
  rw [h2]

theorem insertLoop_cons_err {resp : List Char → Except (List Char) MIRecord}
    {path remotePath : List Char} {l : Nat} {rest : List Nat}
    {tbl : GdbBreakpoints} {bps : List BpResult} {cmds : List (List Char)}
    {e : List Char}
    (h1 : resp (breakInsertCmd remotePath l) = .error e) :
    insertLoop resp path remotePath (l :: rest) tbl bps cmds
      = insertLoop resp path remotePath rest tbl
          (bps ++ [⟨false, l, none⟩]) (cmds ++ [breakInsertCmd remotePath l]) := by
  simp only [insertLoop]
  rw [h1]

theorem insertLoop_outputs (resp : List Char → Except (List Char) MIRecord)
    (path remotePath : List Char) (lines : List Nat) :
    ∀ (tbl : GdbBreakpoints) (bps : List BpResult) (cmds : List (List Char)),
      (insertLoop resp path remotePath lines tbl bps cmds).2.1
        = bps ++ lines.map (bpOutcome resp remotePath)
      ∧ (insertLoop resp path remotePath lines tbl bps cmds).2.2
        = cmds ++ lines.map (breakInsertCmd remotePath) := by
  induction lines with
  | nil => intro tbl bps cmds; simp [insertLoop]
  | cons l rest ih =>
    intro tbl bps cmds
    rcases h1 : resp (breakInsertCmd remotePath l) with e | record
    · have hout : bpOutcome resp remotePath l = ⟨false, l, none⟩ := by
        simp only [bpOutcome, h1]
      rw [insertLoop_cons_err h1]
      simp [ih, hout, List.append_assoc]
    · rcases h2 : getGdbBreakpointId record with _ | gdbId
      · have hout : bpOutcome resp remotePath l = ⟨true, l, none⟩ := by
          simp only [bpOutcome, h1]
          rw [h2]
        rw [insertLoop_cons_ok_noid h1 h2]
        simp [ih, hout, List.append_assoc]
      · have hout : bpOutcome resp remotePath l = ⟨true, l, some gdbId⟩ := by
          simp only [bpOutcome, h1]
          rw [h2]
        rw [insertLoop_cons_ok_id h1 h2]
        simp [ih, hout, List.append_assoc]

theorem insertLoop_other_path (resp : List Char → Except (List Char) MIRecord)
    (path remotePath : List Char) (lines : List Nat) :
    ∀ (tbl : GdbBreakpoints) (bps : List BpResult) (cmds : List (List Char))
      (p : List Char), p ≠ path →
      mapGet (insertLoop resp path remotePath lines tbl bps cmds).1 p
        = mapGet tbl p := by
  induction lines with
  | nil => intro tbl bps cmds p _; simp [insertLoop]
  | cons l rest ih =>
    intro tbl bps cmds p hp
    rcases h1 : resp (breakInsertCmd remotePath l) with e | record
    · rw [insertLoop_cons_err h1]
      exact ih tbl _ _ p hp
    · rcases h2 : getGdbBreakpointId record with _ | gdbId
      · rw [insertLoop_cons_ok_noid h1 h2]
        exact ih tbl _ _ p hp
      · rw [insertLoop_cons_ok_id h1 h2]
        rw [ih _ _ _ p hp]
        exact mapGet_mapSet_ne path p _ tbl hp

theorem insertLoop_bindings (resp : List Char → Except (List Char) MIRecord)
    (path remotePath : List Char) (lines : List Nat) :
    ∀ (tbl : GdbBreakpoints) (bps : List BpResult) (cmds : List (List Char))
      (l : Nat),
      mapGet ((mapGet (insertLoop resp path remotePath lines tbl bps cmds).1
          path).getD []) l
        = if l ∈ lines ∧ insertOutcomeId resp remotePath l ≠ none
          then insertOutcomeId resp remotePath l
          else mapGet ((mapGet tbl path).getD []) l := by
  induction lines with
  | nil =>
    intro tbl bps cmds l
    simp [insertLoop]
  | cons m rest ih =>
    intro tbl bps cmds l
    rcases h1 : resp (breakInsertCmd remotePath m) with e | record
    · have hom : insertOutcomeId resp remotePath m = none := by
        simp only [insertOutcomeId, h1]
      rw [insertLoop_cons_err h1, ih]
      by_cases hlm : l = m
      · subst hlm
        simp [hom]
      · simp [List.mem_cons, hlm]
    · rcases h2 : getGdbBreakpointId record with _ | gdbId
      · have hom : insertOutcomeId resp remotePath m = none := by
          simp only [insertOutcomeId, h1]
          exact h2
        rw [insertLoop_cons_ok_noid h1 h2, ih]
        by_cases hlm : l = m
        · subst hlm
          simp [hom]
        · simp [List.mem_cons, hlm]
      · have hom : insertOutcomeId resp remotePath m = some gdbId := by
          simp only [insertOutcomeId, h1]
          exact h2
        rw [insertLoop_cons_ok_id h1 h2, ih]
        have hremget : mapGet ((mapGet (rememberGdbBreakpoint path m gdbId tbl)
            path).getD []) l
            = mapGet (mapSet m gdbId ((mapGet tbl path).getD [])) l := by
          simp only [rememberGdbBreakpoint, mapGet_mapSet_self, Option.getD]
        by_cases hlm : l = m
        · subst hlm
          by_cases hrest : l ∈ rest ∧ insertOutcomeId resp remotePath l ≠ none
          · simp [hrest, List.mem_cons, hom]
          · rw [if_neg hrest, hremget, mapGet_mapSet_self]
            rw [if_pos ⟨List.mem_cons_self _ _, by simp [hom]⟩, hom]
        · by_cases hrest : l ∈ rest ∧ insertOutcomeId resp remotePath l ≠ none
          · rw [if_pos hrest, if_pos ⟨List.mem_cons_of_mem _ hrest.1, hrest.2⟩]
          · have hcond : ¬(l ∈ m :: rest ∧
                insertOutcomeId resp remotePath l ≠ none) := by
              simp only [List.mem_cons, not_and] at hrest ⊢
              intro hh
              rcases hh with hh | hh
              · exact absurd hh hlm
              · exact hrest hh
            rw [if_neg hrest, hremget, mapGet_mapSet_ne m l _ _ hlm, if_neg hcond]

theorem insertLoop_nodup_keys (resp : List Char → Except (List Char) MIRecord)
    (path remotePath : List Char) (lines : List Nat) :
    ∀ (tbl : GdbBreakpoints) (bps : List BpResult) (cmds : List (List Char)),
      (((mapGet tbl path).getD []).map Prod.fst).Nodup →
      (((mapGet (insertLoop resp path remotePath lines tbl bps cmds).1
          path).getD []).map Prod.fst).Nodup := by
  induction lines with
  | nil =>
    intro tbl bps cmds h
    simpa [insertLoop] using h
  | cons m rest ih =>
    intro tbl bps cmds h
    rcases h1 : resp (breakInsertCmd remotePath m) with e | record
    · rw [insertLoop_cons_err h1]
      exact ih tbl _ _ h
    · rcases h2 : getGdbBreakpointId record with _ | gdbId
      · rw [insertLoop_cons_ok_noid h1 h2]
        exact ih tbl _ _ h
      · rw [insertLoop_cons_ok_id h1 h2]
        refine ih _ _ _ ?_
        simp only [rememberGdbBreakpoint, mapGet_mapSet_self, Option.getD]
        exact nodup_keys_mapSet m gdbId _ h

/-- C7: a breakpoint-set request on a file with recorded bindings first
    issues one `break-delete` per recorded remote id and drops all of the
    file's bindings, then issues one `break-insert` per requested line, in
    order; a line is reported verified exactly when its insert succeeded, a
    parsed `bkpt` id is recorded as the new (file,line) binding, lines not
    in the request hold no binding afterwards, at most one binding exists
    per (file,line), and other files' bindings are untouched. -/
theorem setBreakpoints_policy (resp : List Char → Except (List Char) MIRecord)
    (tbl : GdbBreakpoints) (path remotePath : List Char) (lines : List Nat)
    (hdel : runCommands resp
      (((mapGet tbl path).getD []).map (fun p => breakDeleteCmd p.2)) = none) :
    ∃ tbl',
      setBreakpointsRequest resp tbl path remotePath lines
        = .ok (tbl', lines.map (bpOutcome resp remotePath),
            ((mapGet tbl path).getD []).map (fun p => breakDeleteCmd p.2)
              ++ lines.map (breakInsertCmd remotePath))
      ∧ (∀ l, mapGet ((mapGet tbl' path).getD []) l
          = if l ∈ lines then insertOutcomeId resp remotePath l else none)
      ∧ (((mapGet tbl' path).getD []).map Prod.fst).Nodup
      ∧ (∀ p, p ≠ path → mapGet tbl' p = mapGet tbl p)
      ∧ (∀ l, (bpOutcome resp remotePath l).verified
          = (resp (breakInsertCmd remotePath l)).isOk) := by
  refine ⟨(insertLoop resp path remotePath lines (mapDelete path tbl) [] []).1,
    ?_, ?_, ?_, ?_, ?_⟩
  · simp only [setBreakpointsRequest]
    rw [hdel]
    have hout := insertLoop_outputs resp path remotePath lines
      (mapDelete path tbl) [] []
    show Except.ok
        ((insertLoop resp path remotePath lines (mapDelete path tbl) [] []).1,
         (insertLoop resp path remotePath lines (mapDelete path tbl) [] []).2.1,
         ((mapGet tbl path).getD []).map (fun p => breakDeleteCmd p.2)
           ++ (insertLoop resp path remotePath lines (mapDelete path tbl) [] []).2.2)
      = _
    rw [hout.1, hout.2]
    simp
  · intro l
    rw [insertLoop_bindings resp path remotePath lines (mapDelete path tbl) [] [] l]
    rw [mapGet_mapDelete_self path tbl]
    by_cases hmem : l ∈ lines
    · by_cases hid : insertOutcomeId resp remotePath l = none
      · rw [if_neg (by simp [hid]), if_pos hmem, hid]
        rfl
      · rw [if_pos ⟨hmem, hid⟩, if_pos hmem]
    · rw [if_neg (by simp [hmem]), if_neg hmem]
      rfl
  · refine insertLoop_nodup_keys resp path remotePath lines _ [] [] ?_
    rw [mapGet_mapDelete_self path tbl]
    simp
  · intro p hp
    rw [insertLoop_other_path resp path remotePath lines _ [] [] p hp]
    exact mapGet_mapDelete_ne path p tbl hp
  · intro l
    rcases h1 : resp (breakInsertCmd remotePath l) with e | record
    · simp [bpOutcome, h1, Except.isOk, Except.toBool]
    · rcases h2 : getGdbBreakpointId record with _ | gdbId <;>
        simp [bpOutcome, h1, h2, Except.isOk, Except.toBool]

/-- C7 witness: replacing `/l/t.c`'s bindings {10 → 1, 20 → 2} with lines
    [20, 30]: both old ids are deleted, both lines are re-inserted, line 20
    verifies with id 5, line 30 fails and stays unverified. -/
theorem setBreakpoints_policy_witness :
    ∃ tbl',
      setBreakpointsRequest c7ExampleResp c7ExampleTbl (chars "/l/t.c")
          (chars "/r/t.c") [20, 30]
        = .ok (tbl', [20, 30].map (bpOutcome c7ExampleResp (chars "/r/t.c")),
            ((mapGet c7ExampleTbl (chars "/l/t.c")).getD []).map
                (fun p => breakDeleteCmd p.2)
              ++ [20, 30].map (breakInsertCmd (chars "/r/t.c")))
      ∧ (∀ l, mapGet ((mapGet tbl' (chars "/l/t.c")).getD []) l
          = if l ∈ [20, 30] then insertOutcomeId c7ExampleResp (chars "/r/t.c") l
            else none)
      ∧ (((mapGet tbl' (chars "/l/t.c")).getD []).map Prod.fst).Nodup
      ∧ (∀ p, p ≠ chars "/l/t.c" → mapGet tbl' p = mapGet c7ExampleTbl p)
      ∧ (∀ l, (bpOutcome c7ExampleResp (chars "/r/t.c") l).verified
          = (c7ExampleResp (breakInsertCmd (chars "/r/t.c") l)).isOk) :=
  setBreakpoints_policy c7ExampleResp c7ExampleTbl (chars "/l/t.c")
    (chars "/r/t.c") [20, 30] (by decide)

end RemoteGdb
